import Mathlib

/-!
# Verification of the roOs CI test-campaign orchestrator (`Tools/CIWorkflow/TestValidator.py`)

This file gives a shallow embedding of the orchestration-and-validation engine:

* the flag patcher `UpdateTestFile` (regex searches are embedded at the level of the two
  concrete patterns the source compiles: the literal pattern `TEST_FRAMEWORK_TEST_NAME`,
  the lazy pattern `TEST_(.*?)_ENABLED`, and the per-flag literal pattern
  `TEST_<flag>_ENABLED`; flag names are taken as literals, i.e. names containing regex
  metacharacters are outside the model);
* the report extractor `ParseInputFile` with its duplicate-rejecting hook
  `DictRaiseDuplicate`;
* the validator `Validate`;
* the `__main__` campaign loop (`runGroup` / `runGroups` / `mainRun`).

Files are modelled as lists of lines, each line a `List Char` (with its trailing newline
where the source keeps one).  External effects (the `make` invocations, the emulator, the
file system, `p.kill()`) are modelled by their observable results recorded in a
`GroupEnv`: the exit statuses of `make clean` and the build, the exit status and
timeout flag of the run, and the captured content of the output file.
-/

set_option maxHeartbeats 1000000
set_option maxRecDepth 100000

namespace TestValidator

/-- A line of text, as a list of characters. -/
abbrev Line := List Char

/-- Characters of a string literal. -/
def chars (s : String) : Line := s.data

/-- `containsSub pat l` holds iff `pat` occurs as a contiguous substring of `l`.
This is the semantics of `re.search` for a pattern with no metacharacters. -/
def containsSub (pat : Line) : Line → Bool
  | [] => decide (pat = [])
  | c :: rest => pat.isPrefixOf (c :: rest) || containsSub pat rest

/-- The literal tail `_ENABLED` of the flag pattern. -/
def enabledTail : Line := ("_ENABLED").data

/-- The literal head `TEST_` of the flag pattern. -/
def testHead : Line := ("TEST_").data

/-- Lazy `(.*?)` step of the pattern `TEST_(.*?)_ENABLED`: the shortest prefix `c` of the
input containing no newline such that `_ENABLED` starts right after `c`.  (`.` in a
Python regex does not match a newline.) -/
def lazyDot : Line → Option Line
  | [] => none
  | c :: rest =>
    if enabledTail.isPrefixOf (c :: rest) then some []
    else if c = '\n' then none
    else (lazyDot rest).map (c :: ·)

/-- `re.search("TEST_(.*?)_ENABLED", line)`: the text of the leftmost (and, for the lazy
group, shortest) match, i.e. `result.group(0)` in the source, or `none` if no match. -/
def searchTestEnabled : Line → Option Line
  | [] => none
  | c :: rest =>
    if testHead.isPrefixOf (c :: rest) then
      match lazyDot ((c :: rest).drop 5) with
      | some mid => some (testHead ++ mid ++ enabledTail)
      | none => searchTestEnabled rest
    else searchTestEnabled rest

/-- The literal pattern `TEST_FRAMEWORK_TEST_NAME` compiled at line 117 of the source. -/
def namePat : Line := ("TEST_FRAMEWORK_TEST_NAME").data

/-- The literal pattern `" \* TESTING ENABLE FLAGS"` compiled at line 137 of the source
(the backslash escapes the star, so this is a plain substring search). -/
def markerPat : Line := (" * TESTING ENABLE FLAGS").data

/-- `newLine + " " * (50 - len(newLine))`: pad a line to column 50 with spaces
(no padding when the line is already 50 characters or longer, as in Python). -/
def padTo50 (l : Line) : Line := l ++ List.replicate (50 - l.length) ' '

/-- The rewritten test-name line `"#define TEST_FRAMEWORK_TEST_NAME \"{}\"\n".format(testName)`
(line 123 of the source). -/
def nameLineOf (testName : Line) : Line :=
  ("#define TEST_FRAMEWORK_TEST_NAME \"").data ++ testName ++ ("\"\n").data

/-- The disabled flag line built at lines 130-131 of the source from a match `m`
(`m` is `result.group(0)`). -/
def disabledLineOf (m : Line) : Line :=
  padTo50 (("#define ").data ++ m) ++ ("0\n").data

/-- The enabled flag line built at lines 153-154 of the source for a flag name `f`. -/
def enabledLineOf (f : Line) : Line :=
  padTo50 (("#define TEST_").data ++ f ++ ("_ENABLED").data) ++ ("1\n").data

/-- The per-flag search pattern `"TEST_{}_ENABLED".format(testFlag)` (line 152),
taken as a literal pattern. -/
def flagPat (f : Line) : Line := testHead ++ f ++ enabledTail

/-- First scan of `UpdateTestFile` (lines 118-133 of the source): rewrite the first line
matching `TEST_FRAMEWORK_TEST_NAME` (skipping its flag check via `continue`), rewrite
every line matching `TEST_(.*?)_ENABLED` to a disabled definition, and record the index
of the first such flag line.  Returns the rewritten lines, the final `nameFound` flag and
the recorded `startPosition` (as `none` when it stayed `-1`). -/
def pass1 (testName : Line) : List Line → Bool → List Line × (Bool × Option Nat)
  | [], nameFound => ([], (nameFound, none))
  | l :: rest, nameFound =>
    if !nameFound && containsSub namePat l then
      let r := pass1 testName rest true
      (nameLineOf testName :: r.1, (r.2.1, r.2.2.map (· + 1)))
    else
      match searchTestEnabled l with
      | some m =>
        let r := pass1 testName rest nameFound
        (disabledLineOf m :: r.1, (r.2.1, some 0))
      | none =>
        let r := pass1 testName rest nameFound
        (l :: r.1, (r.2.1, r.2.2.map (· + 1)))

/-- Fallback anchor search (lines 136-142): the index of the *last* line containing the
constants-section marker (the loop overwrites `startPosition` on every match). -/
def findLastMarker : List Line → Option Nat
  | [] => none
  | l :: rest =>
    match (findLastMarker rest).map (· + 1) with
    | some k => some k
    | none => if containsSub markerPat l then some 0 else none

/-- The inner loop at lines 155-160: starting at index `k`, replace the first line
containing `pat` by `new`; `none` when no line from `k` on matches. -/
def replaceFrom (pat new : Line) : Nat → List Line → Option (List Line)
  | _, [] => none
  | 0, l :: rest =>
    if containsSub pat l then some (new :: rest)
    else (replaceFrom pat new 0 rest).map (l :: ·)
  | k + 1, l :: rest => (replaceFrom pat new k rest).map (l :: ·)

/-- Python `list.insert(k, x)`: insert `x` at index `k` (appending when `k` exceeds the
length, as Python clamps). -/
def insertAt (k : Nat) (x : Line) (xs : List Line) : List Line :=
  xs.take k ++ [x] ++ xs.drop k

/-- One iteration of the loop at lines 150-162: enable flag `f`, either by rewriting an
existing definition found from `startPosition` on, or by inserting a fresh enabled
definition at `startPosition + 1`. -/
def enableOne (f : Line) (startPosition : Nat) (ls : List Line) : List Line :=
  match replaceFrom (flagPat f) (enabledLineOf f) startPosition ls with
  | some ls' => ls'
  | none => insertAt (startPosition + 1) (enabledLineOf f) ls

/-- The full loop at lines 150-162 over the group's flags. -/
def enablePass (testGroup : List Line) (startPosition : Nat) (ls : List Line) : List Line :=
  testGroup.foldl (fun a f => enableOne f startPosition a) ls

/-- `UpdateTestFile(filename, testGroup, testName)` (lines 109-170), acting on the file's
lines.  `none` models the fatal `exit(-1)` at line 147 when no anchor is found. -/
def UpdateTestFile (fileContent : List Line) (testGroup : List Line) (testName : Line) :
    Option (List Line) :=
  let r := pass1 testName fileContent false
  let startPosition :=
    match r.2.2 with
    | some p => some p
    | none => (findLastMarker r.1).map (· + 2)
  match startPosition with
  | none => none
  | some p => some (enablePass testGroup p r.1)

/-! ## Report model and Python-level errors -/

/-- The exceptions the interpreter can raise while extracting and validating a report.
`dupTestId` is the `ValueError` raised by `DictRaiseDuplicate`; `decodeError` is
`json.JSONDecodeError`; the remaining constructors are the builtin exceptions raised by
item access, attribute access, list indexing and string formatting. -/
inductive PyErr where
  | dupTestId (k : Line)
  | decodeError
  | keyError (k : Line)
  | typeError
  | attributeError
  | indexError
  deriving DecidableEq, Repr

/-- A parsed JSON value after the `object_pairs_hook` ran: objects are insertion-ordered
key/value lists (Python dicts preserve insertion order). -/
inductive Json where
  | null
  | bool (b : Bool)
  | num (n : Int)
  | str (s : Line)
  | arr (elems : List Json)
  | obj (pairs : List (Line × Json))
  deriving Repr

/-- A raw JSON document as the `json` tokenizer delivers it, before the
`object_pairs_hook` is applied: objects are the raw ordered pair lists. -/
inductive JDoc where
  | null
  | bool (b : Bool)
  | num (n : Int)
  | str (s : Line)
  | arr (elems : List JDoc)
  | obj (pairs : List (Line × JDoc))
  deriving Repr

/-- Key membership in an insertion-ordered dict (`k in d`). -/
def containsKey (d : List (Line × Json)) (k : Line) : Bool :=
  match d with
  | [] => false
  | (k', _) :: rest => k' = k || containsKey rest k

/-- Worker of `DictRaiseDuplicate`: fold the ordered pairs into a dict, raising on a
duplicate key. -/
def dictBuild (d : List (Line × Json)) : List (Line × Json) →
    Except PyErr (List (Line × Json))
  | [] => .ok d
  | (k, v) :: rest =>
    if containsKey d k then .error (.dupTestId k) else dictBuild (d ++ [(k, v)]) rest

/-- `DictRaiseDuplicate(ordPairs)` (lines 77-85 of the source): build a dict from the
ordered pairs, raising `ValueError("Duplicate test ID: ...")` on a repeated key. -/
def DictRaiseDuplicate (ordPairs : List (Line × Json)) : Except PyErr (List (Line × Json)) :=
  dictBuild [] ordPairs

mutual
/-- Apply the `object_pairs_hook` (`DictRaiseDuplicate`) bottom-up to a raw document, the
way `json.loads` fires the hook on each completed object, innermost first. -/
def buildJson : JDoc → Except PyErr Json
  | .null => .ok .null
  | .bool b => .ok (.bool b)
  | .num n => .ok (.num n)
  | .str s => .ok (.str s)
  | .arr xs => do .ok (.arr (← buildJsonList xs))
  | .obj ps => do .ok (.obj (← DictRaiseDuplicate (← buildJsonPairs ps)))

/-- `buildJson` over the elements of an array. -/
def buildJsonList : List JDoc → Except PyErr (List Json)
  | [] => .ok []
  | x :: xs => do .ok ((← buildJson x) :: (← buildJsonList xs))

/-- `buildJson` over the values of an object's raw pairs, in order. -/
def buildJsonPairs : List (Line × JDoc) → Except PyErr (List (Line × Json))
  | [] => .ok []
  | (k, v) :: ps => do .ok ((k, (← buildJson v)) :: (← buildJsonPairs ps))
end

/-! ## The JSON tokenizer

`json.loads`'s text-level grammar is standard-library code, not code of this repository;
it is modelled here by a fuel-bounded recursive-descent parser producing a `JDoc`
(`none` models `json.JSONDecodeError`).  It covers the grammar fragment the test reports
use: objects, arrays, double-quoted strings with the basic escapes, integers, `true`,
`false` and `null`; it is only ever evaluated on concrete inputs in this development. -/

/-- JSON whitespace. -/
def isWs (c : Char) : Bool := c = ' ' || c = '\t' || c = '\n' || c = '\r'

/-- Skip JSON whitespace. -/
def skipWs (l : Line) : Line := l.dropWhile isWs

/-- Parse the body of a double-quoted string (the opening quote already consumed). -/
def parseStr : Nat → Line → Option (Line × Line)
  | 0, _ => none
  | _, [] => none
  | fuel + 1, c :: rest =>
    if c = '"' then some ([], rest)
    else if c = '\\' then
      match rest with
      | [] => none
      | e :: rest' =>
        let esc : Option Char :=
          if e = '"' then some '"'
          else if e = '\\' then some '\\'
          else if e = '/' then some '/'
          else if e = 'n' then some '\n'
          else if e = 't' then some '\t'
          else if e = 'r' then some '\r'
          else none
        match esc with
        | none => none
        | some ch => (parseStr fuel rest').map (fun r => (ch :: r.1, r.2))
    else if c = '\n' then none
    else (parseStr fuel (c :: rest).tail).map (fun r => (c :: r.1, r.2))

/-- Parse an unsigned integer literal (strict JSON: a leading `0` is the whole literal). -/
def parseDigits (l : Line) : Option (Nat × Line) :=
  match l.span Char.isDigit with
  | (ds, rest) =>
    if ds = [] then none
    else if ds.head? = some '0' ∧ ds.length > 1 then none
    else some (ds.foldl (fun a c => a * 10 + (c.toNat - 48)) 0, rest)

mutual
/-- Parse one JSON value. -/
def parseVal : Nat → Line → Option (JDoc × Line)
  | 0, _ => none
  | fuel + 1, l =>
    match skipWs l with
    | [] => none
    | c :: rest =>
      if c = '{' then parseObj fuel rest
      else if c = '[' then parseArr fuel rest
      else if c = '"' then (parseStr fuel rest).map (fun r => (.str r.1, r.2))
      else if c = '-' then (parseDigits rest).map (fun r => (.num (-(r.1 : Int)), r.2))
      else if c.isDigit then (parseDigits (c :: rest)).map (fun r => (.num (r.1 : Int), r.2))
      else if (("true").data).isPrefixOf (c :: rest) then some (.bool true, (c :: rest).drop 4)
      else if (("false").data).isPrefixOf (c :: rest) then some (.bool false, (c :: rest).drop 5)
      else if (("null").data).isPrefixOf (c :: rest) then some (.null, (c :: rest).drop 4)
      else none

/-- Parse an object body (the `{` already consumed). -/
def parseObj : Nat → Line → Option (JDoc × Line)
  | 0, _ => none
  | fuel + 1, l =>
    match skipWs l with
    | '}' :: rest => some (.obj [], rest)
    | l' => (parseMembers fuel l').map (fun r => (JDoc.obj r.1, r.2))

/-- Parse one or more `"key": value` members followed by `}`. -/
def parseMembers : Nat → Line → Option (List (Line × JDoc) × Line)
  | 0, _ => none
  | fuel + 1, l =>
    match skipWs l with
    | '"' :: rest =>
      match parseStr fuel rest with
      | none => none
      | some (k, rest₁) =>
        match skipWs rest₁ with
        | ':' :: rest₂ =>
          match parseVal fuel rest₂ with
          | none => none
          | some (v, rest₃) =>
            match skipWs rest₃ with
            | ',' :: rest₄ =>
              (parseMembers fuel rest₄).map (fun r => ((k, v) :: r.1, r.2))
            | '}' :: rest₄ => some ([(k, v)], rest₄)
            | _ => none
        | _ => none
    | _ => none

/-- Parse an array body (the `[` already consumed). -/
def parseArr : Nat → Line → Option (JDoc × Line)
  | 0, _ => none
  | fuel + 1, l =>
    match skipWs l with
    | ']' :: rest => some (.arr [], rest)
    | l' => (parseElems fuel l').map (fun r => (JDoc.arr r.1, r.2))

/-- Parse one or more array elements followed by `]`. -/
def parseElems : Nat → Line → Option (List JDoc × Line)
  | 0, _ => none
  | fuel + 1, l =>
    match parseVal fuel l with
    | none => none
    | some (v, rest) =>
      match skipWs rest with
      | ',' :: rest' => (parseElems fuel rest').map (fun r => (v :: r.1, r.2))
      | ']' :: rest' => some ([v], rest')
      | _ => none
end

/-- `json.loads`' tokenizer on a whole text: one value, then only whitespace
("Extra data" otherwise). -/
def jsonParse (l : Line) : Option JDoc :=
  match parseVal (l.length + 8) l with
  | none => none
  | some (v, rest) => if skipWs rest = [] then some v else none

/-! ## `ParseInputFile` -/

/-- `line.strip("\n")`: remove leading and trailing newline characters. -/
def stripNl (l : Line) : Line :=
  ((l.dropWhile (· = '\n')).reverse.dropWhile (· = '\n')).reverse

/-- The start sentinel at line 94 of the source. -/
def startSentinel : Line := ("#-------- TESTING SECTION START --------#").data

/-- The end sentinel at line 96 of the source. -/
def endSentinel : Line := ("#-------- TESTING SECTION END --------#").data

/-- The scan at lines 88-100: accumulate the stripped lines strictly between the two
sentinel lines (each followed by a newline), toggling the inside-region flag on each
sentinel. -/
def extractBody : List Line → Bool → Line
  | [], _ => []
  | l :: rest, inside =>
    let s := stripNl l
    if s = startSentinel then extractBody rest true
    else if s = endSentinel then extractBody rest false
    else if inside then s ++ ('\n' :: extractBody rest inside)
    else extractBody rest inside

/-- `ParseInputFile(filename)` (lines 87-107) on the file's lines: extract the delimited
region; return the empty string when the region is empty (modelled as `Json.str []`),
otherwise `json.loads` the buffer with `DictRaiseDuplicate` as `object_pairs_hook`.
An `.error` models an exception escaping `ParseInputFile` — the caller at line 230 does
not catch it.  (The source opens the file with `errors='ignore'`; undecodable bytes are
outside the character-level model.) -/
def ParseInputFile (fileLines : List Line) : Except PyErr Json :=
  let jsonBody := extractBody fileLines false
  if jsonBody.length = 0 then .ok (.str [])
  else
    match jsonParse jsonBody with
    | none => .error .decodeError
    | some doc => buildJson doc

/-- Python `len()` on a parsed JSON value: defined for strings, arrays and dicts,
a `TypeError` otherwise (as at line 231 of the source for e.g. a bare number). -/
def pyLen : Json → Except PyErr Nat
  | .str s => .ok s.length
  | .arr xs => .ok xs.length
  | .obj d => .ok d.length
  | _ => .error .typeError

/-! ## `Validate` -/

/-- `TYPE_STR` (lines 19-32 of the source). -/
def TYPE_STR : List Line :=
  [("BYTE").data, ("UBYTE").data, ("HALF").data, ("UHALF").data,
   ("WORD").data, ("UWORD").data, ("DWORD").data, ("UDWORD").data,
   ("FLOAT").data, ("DOUBLE").data, ("RCODE").data, ("POINTER").data]

/-- First-match lookup in an insertion-ordered dict. -/
def jLookup (d : List (Line × Json)) (k : Line) : Option Json :=
  match d with
  | [] => none
  | (k', v) :: rest => if k' = k then some v else jLookup rest k

/-- Python `obj[key]` for a string key: `KeyError` when missing, `TypeError` when the
value is not a dict. -/
def pyGetItem (j : Json) (k : Line) : Except PyErr Json :=
  match j with
  | .obj d =>
    match jLookup d k with
    | some v => .ok v
    | none => .error (.keyError k)
  | _ => .error .typeError

/-- Formatting a value with `"{:...s}"` requires a string. -/
def asStr : Json → Except PyErr Line
  | .str s => .ok s
  | _ => .error .typeError

/-- Formatting with `"{:...d}"`/`"{:X}"` and list indexing require an integer
(Python `bool` is an `int`). -/
def asIntLike : Json → Except PyErr Int
  | .num n => .ok n
  | .bool b => .ok (if b then 1 else 0)
  | _ => .error .typeError

/-- `.items()` requires a dict (`AttributeError` otherwise). -/
def asObj : Json → Except PyErr (List (Line × Json))
  | .obj d => .ok d
  | _ => .error .attributeError

/-- Python list indexing with negative-index support (`IndexError` out of range). -/
def pyIndex (xs : List Line) (i : Int) : Except PyErr Line :=
  let j : Int := if i < 0 then i + xs.length else i
  if h : 0 ≤ j ∧ j < xs.length then
    .ok (xs.get ⟨j.toNat, by omega⟩)
  else .error .indexError

/-- Python `testContent["status"] == 0`: true for the integer `0` and for `False`;
false for every other value (`==` between unrelated types is `False`, not an error). -/
def pyEqZero : Json → Bool
  | .num n => n = 0
  | .bool b => !b
  | _ => false

/-- The per-case loop at lines 55-60 of the source: for each test case in dict order,
read its `status`; when it compares equal to `0`, evaluate the failure-detail print's
arguments — `expected`, `result`, `type` item accesses, the `TYPE_STR` indexing, then
the `{:X}` formats — each of which can raise. -/
def checkCases : List (Line × Json) → Except PyErr Unit
  | [] => .ok ()
  | (_, testContent) :: rest => do
    let st ← pyGetItem testContent (("status").data)
    if pyEqZero st then
      let ex ← pyGetItem testContent (("expected").data)
      let res ← pyGetItem testContent (("result").data)
      let ty ← pyGetItem testContent (("type").data)
      let tyv ← asIntLike ty
      let _ ← pyIndex TYPE_STR tyv
      let _ ← asIntLike ex
      let _ ← asIntLike res
      checkCases rest
    else
      checkCases rest

/-- `Validate(jsonTestsuite)` (lines 39-74): evaluate the header prints' item accesses
and formats in source order, run the per-case loop, and return
`jsonTestsuite["failures"]`.  The verdict is this returned counter alone; the per-case
statuses are not re-counted. -/
def Validate (jsonTestsuite : Json) : Except PyErr Int := do
  let ver ← pyGetItem jsonTestsuite (("version").data)
  let _ ← asStr ver
  let nm ← pyGetItem jsonTestsuite (("name").data)
  let _ ← asStr nm
  let nt ← pyGetItem jsonTestsuite (("number_of_tests").data)
  let sc ← pyGetItem jsonTestsuite (("success").data)
  let fl ← pyGetItem jsonTestsuite (("failures").data)
  let _ ← asIntLike nt
  let _ ← asIntLike sc
  let failures ← asIntLike fl
  let ts ← pyGetItem jsonTestsuite (("test_suite").data)
  let cases ← asObj ts
  let _ ← checkCases cases
  .ok failures

/-! ## The `__main__` campaign loop -/

/-- `TARGET_LIST` (lines 34-37 of the source). -/
def TARGET_LIST : List Line := [("x86_64").data, ("x86_i386").data]

/-- One group read from the group-definition file: `group["name"]` and
`group["group"]`. -/
structure TestGroupJ where
  name : Line
  group : List Line
  deriving Repr

/-- The observable results of one group's external commands: the exit statuses of
`os.system("make clean")` and of the build, the exit status of the run process and
whether its 30-second wait timed out (in which case the source kills it), and the
content of the output file after the run and `os.sync()`. -/
structure GroupEnv where
  cleanRet : Int
  buildRet : Int
  runRet : Int
  runTimedOut : Bool
  outputLines : List Line
  deriving Repr

/-- How one group's iteration of the loop at lines 196-239 ended.  `validatedFail`
carries the non-zero `failures` counter `Validate` returned. -/
inductive GroupOutcome where
  | cleanFailed
  | buildFailed
  | missingReport
  | validatedPass
  | validatedFail (failures : Int)
  deriving DecidableEq, Repr

/-- A campaign-terminating event: the `exit(-1)` inside `UpdateTestFile`, or an
exception from `ParseInputFile`/`Validate` that nothing in `__main__` catches. -/
inductive Fatal where
  | patchAbort
  | uncaught (e : PyErr)
  deriving DecidableEq, Repr

/-- One iteration of the group loop (lines 206-239), after `total` was already
incremented: patch the test-list file, run clean and build (each `continue`ing with an
error on non-zero exit), run the target — whose exit status `p.wait(30)` returns is
discarded by the source, and whose timeout only triggers `p.kill()` — then parse the
captured output and validate.  Returns the patched test-list file and the outcome. -/
def runGroup (cfg : List Line) (g : TestGroupJ) (env : GroupEnv) :
    Except Fatal (List Line × GroupOutcome) :=
  match UpdateTestFile cfg g.group g.name with
  | none => .error .patchAbort
  | some cfg' =>
    if env.cleanRet ≠ 0 then .ok (cfg', .cleanFailed)
    else if env.buildRet ≠ 0 then .ok (cfg', .buildFailed)
    else
      match ParseInputFile env.outputLines with
      | .error e => .error (.uncaught e)
      | .ok jsonTestsuite =>
        match pyLen jsonTestsuite with
        | .error e => .error (.uncaught e)
        | .ok n =>
          if n ≠ 0 then
            match Validate jsonTestsuite with
            | .error e => .error (.uncaught e)
            | .ok retValue =>
              .ok (cfg', if retValue = 0 then .validatedPass else .validatedFail retValue)
          else .ok (cfg', .missingReport)

/-- The `total`/`success`/`error` counters of lines 186-188. -/
structure Summary where
  total : Nat
  success : Nat
  error : Nat
  deriving DecidableEq, Repr

/-- Fold a group outcome into the counters: `success += 1` exactly on a validated
zero-failure report, `error += 1` on every other outcome. -/
def applyOutcome (s : Summary) : GroupOutcome → Summary
  | .validatedPass => { s with success := s.success + 1 }
  | _ => { s with error := s.error + 1 }

/-- How the whole process ended: `completed` reaches the final report and `exit(error)`
(line 249); `patchAborted` is the `exit(-1)` at line 147; `crashed` is an uncaught
exception unwinding out of `__main__` (the interpreter then exits with status 1).
Each carries the counters at that moment. -/
inductive MainOutcome where
  | completed (s : Summary)
  | patchAborted (s : Summary)
  | crashed (e : PyErr) (s : Summary)
  deriving DecidableEq, Repr

/-- The process exit status each ending produces. -/
def exitStatus : MainOutcome → Int
  | .completed s => s.error
  | .patchAborted _ => -1
  | .crashed _ _ => 1

/-- The group loop at lines 196-239: `total += 1`, run the group, fold its outcome into
the counters, thread the patched test-list file to the next group; stop the whole
campaign on a `Fatal`. -/
def runGroups (cfg : List Line) (s : Summary) :
    List (TestGroupJ × GroupEnv) → MainOutcome
  | [] => .completed s
  | (g, env) :: rest =>
    let s' : Summary := { s with total := s.total + 1 }
    match runGroup cfg g env with
    | .error .patchAbort => .patchAborted s'
    | .error (.uncaught e) => .crashed e s'
    | .ok (cfg', o) => runGroups cfg' (applyOutcome s' o) rest

/-- The result of `__main__` (lines 173-249): whether the unknown-target message of
line 191 was printed, and how the campaign ended.  The target check only prints —
execution falls through to the group loop either way. -/
structure MainResult where
  unknownTargetReported : Bool
  outcome : MainOutcome
  deriving DecidableEq, Repr

/-- `__main__` on a well-formed group file: check the target against `TARGET_LIST`
(report-only), then run every group starting from zeroed counters. -/
def mainRun (target : Line) (cfg : List Line) (groups : List (TestGroupJ × GroupEnv)) :
    MainResult :=
  { unknownTargetReported := decide (target ∉ TARGET_LIST)
    outcome := runGroups cfg ⟨0, 0, 0⟩ groups }

/-! ## A structured model of configuration files, for the patcher claims

A well-formed configuration file (spec §6: a line-oriented file with a unique
campaign-name marker and fixed-column flag-enable directives) is rendered from a list of
entries: inert lines, at most one name-marker line, and canonical flag-definition
lines. -/

/-- The canonical flag-definition line for flag `n` with value character `v`, in the
exact fixed-column format the patcher itself emits. -/
def mkFlagLine (n : Line) (v : Char) : Line :=
  padTo50 (("#define TEST_").data ++ n ++ ("_ENABLED").data) ++ [v, '\n']

/-- One line of a structured configuration file. -/
inductive Entry where
  | neutral (l : Line)
  | nameDecl (s : Line)
  | flag (n : Line) (v : Char)
  deriving DecidableEq, Repr

/-- Render an entry to its line of text. -/
def renderEntry : Entry → Line
  | .neutral l => l
  | .nameDecl s => nameLineOf s
  | .flag n v => mkFlagLine n v

/-- Render a structured file to its lines. -/
def render (es : List Entry) : List Line := es.map renderEntry

/-- The flag names defined by a structured file, in order. -/
def flagNames (es : List Entry) : List Line :=
  es.filterMap fun e => match e with | .flag n _ => some n | _ => none

/-- Whether an entry is a flag definition. -/
def isFlagE : Entry → Bool
  | .flag _ _ => true
  | _ => false

/-- The number of name-marker lines. -/
def nameCount (es : List Entry) : Nat :=
  (es.filter fun e => match e with | .nameDecl _ => true | _ => false).length

/-- Index of the first flag definition, if any. -/
def firstFlagIdx : List Entry → Option Nat
  | [] => none
  | .flag _ _ :: _ => some 0
  | _ :: rest => (firstFlagIdx rest).map (· + 1)

/-- The effect of the patcher's first scan on one entry: the name marker is rewritten to
the new test name, every flag definition is disabled. -/
def disableEntry (tn : Line) : Entry → Entry
  | .neutral l => .neutral l
  | .nameDecl _ => .nameDecl tn
  | .flag n _ => .flag n '0'

/-- The effect of the enable pass on one entry: flag definitions whose name is in `fs`
are set to enabled. -/
def enableValsE (fs : List Line) : Entry → Entry
  | .flag n v => .flag n (if n ∈ fs then '1' else v)
  | e => e

/-- Set the flag definitions named `f` to enabled. -/
def setFlagTo1 (f : Line) : Entry → Entry
  | .flag n v => if n = f then .flag f '1' else .flag n v
  | e => e

/-- Entry-level image of the inner search loop: replace the first entry whose rendered
line contains the pattern of flag `f` by an enabled definition of `f`. -/
def replaceFirstE (f : Line) : List Entry → Option (List Entry)
  | [] => none
  | e :: rest =>
    if containsSub (flagPat f) (renderEntry e) then some (.flag f '1' :: rest)
    else (replaceFirstE f rest).map (e :: ·)

/-- The flags of `fs` that are not yet defined (relative to the names `ns`), each kept
once, in first-occurrence order. -/
def missingFlags : List Line → List Line → List Line
  | [], _ => []
  | f :: fs, ns => if f ∈ ns then missingFlags fs ns else f :: missingFlags fs (f :: ns)

/-- The model-level image of `UpdateTestFile` on a structured file: disable everything
(rewriting the name marker), then — relative to the anchor, the first flag definition —
enable the group's flags in place and insert the still-missing ones right after the
anchor, in reverse first-occurrence order. -/
def patchModel (es : List Entry) (flags : List Line) (tn : Line) : List Entry :=
  let ds := es.map (disableEntry tn)
  match firstFlagIdx ds with
  | none => ds
  | some p =>
    (ds.take (p + 1)).map (enableValsE flags) ++
    (missingFlags flags (flagNames ds)).reverse.map (fun f => Entry.flag f '1') ++
    (ds.drop (p + 1)).map (enableValsE flags)

/-- A flag name is unambiguous for the patcher's patterns relative to the name universe
`U`: the lazy scan recognizes exactly it on its own canonical lines, the name-marker
pattern does not fire on them, its own search pattern fires on them, and no *other*
flag's search pattern does. -/
def flagNameOKB (n : Line) (U : List Line) : Bool :=
  decide (searchTestEnabled (mkFlagLine n '0') = some (flagPat n)) &&
  decide (searchTestEnabled (mkFlagLine n '1') = some (flagPat n)) &&
  !containsSub namePat (mkFlagLine n '0') &&
  !containsSub namePat (mkFlagLine n '1') &&
  containsSub (flagPat n) (mkFlagLine n '0') &&
  containsSub (flagPat n) (mkFlagLine n '1') &&
  U.all fun f => decide (f = n) || (!containsSub (flagPat f) (mkFlagLine n '0') &&
                                    !containsSub (flagPat f) (mkFlagLine n '1'))

/-- An inert line: none of the patcher's patterns fires on it. -/
def neutralOKB (l : Line) (U : List Line) : Bool :=
  (searchTestEnabled l).isNone && !containsSub namePat l &&
  U.all fun f => !containsSub (flagPat f) l

/-- A test name is unambiguous: its rendered marker line is found by the name pattern
but by neither the lazy flag scan nor any flag's search pattern. -/
def nameLineOKB (s : Line) (U : List Line) : Bool :=
  containsSub namePat (nameLineOf s) && (searchTestEnabled (nameLineOf s)).isNone &&
  U.all fun f => !containsSub (flagPat f) (nameLineOf s)

/-- Well-formedness of one entry relative to the name universe `U`. -/
def entryOKB (U : List Line) : Entry → Bool
  | .neutral l => neutralOKB l U
  | .nameDecl s => nameLineOKB s U
  | .flag n v => (decide (v = '0') || decide (v = '1')) && flagNameOKB n U

/-- Well-formedness of a structured configuration file together with a group's flag list
and test name: every entry, every group flag and the test name are unambiguous relative
to the universe of all names involved, flag definitions are pairwise distinct, and there
is at most one name-marker line. -/
def WFcheck (es : List Entry) (flags : List Line) (tn : Line) : Bool :=
  let U := flags ++ flagNames es
  es.all (entryOKB U) && flags.all (fun f => flagNameOKB f U) && nameLineOKB tn U &&
  decide ((flagNames es).Nodup) && decide (nameCount es ≤ 1)

/-! ## Well-formed reports, for the validator claim -/

/-- A test-case entry carrying every field the failure-detail print reads, with an
in-range type index (spec §3, `TestCaseResult`). -/
def caseOKB : Json → Bool
  | .obj c =>
    (jLookup c (("status").data)).isSome &&
    (match jLookup c (("expected").data) with | some (.num _) => true | _ => false) &&
    (match jLookup c (("result").data) with | some (.num _) => true | _ => false) &&
    (match jLookup c (("type").data) with
     | some (.num t) => decide (-12 ≤ t ∧ t < 12)
     | _ => false)
  | _ => false

/-- A report matching the `TestSuiteReport` schema of spec §3: string `version` and
`name`, integer counters, and a `test_suite` dict of schema-conformant cases. -/
def WFReportB : Json → Bool
  | .obj d =>
    (match jLookup d (("version").data) with | some (.str _) => true | _ => false) &&
    (match jLookup d (("name").data) with | some (.str _) => true | _ => false) &&
    (match jLookup d (("number_of_tests").data) with | some (.num _) => true | _ => false) &&
    (match jLookup d (("success").data) with | some (.num _) => true | _ => false) &&
    (match jLookup d (("failures").data) with | some (.num _) => true | _ => false) &&
    (match jLookup d (("test_suite").data) with
     | some (.obj cases) => cases.all fun p => caseOKB p.2
     | _ => false)
  | _ => false

/-! ## Concrete fixtures used by witnesses and counterexamples -/

/-- A captured output file whose report parses and passes (zero failures). -/
def passFile : List Line := [
  ("noise before\n").data,
  ("#-------- TESTING SECTION START --------#\n").data,
  ("\x7b\"version\": \"1.0\", \"name\": \"G1\", \"number_of_tests\": 2, \"success\": 2, \"failures\": 0, \"test_suite\": \x7b\"t1\": \x7b\"status\": 1, \"expected\": 0, \"result\": 0, \"type\": 0\x7d, \"t2\": \x7b\"status\": 1, \"expected\": 1, \"result\": 1, \"type\": 4\x7d\x7d\x7d\n").data,
  ("#-------- TESTING SECTION END --------#\n").data,
  ("noise after\n").data]

/-- A captured output file whose report parses with one failing case. -/
def failFile : List Line := [
  ("#-------- TESTING SECTION START --------#\n").data,
  ("\x7b\"version\": \"1.0\", \"name\": \"G2\", \"number_of_tests\": 1, \"success\": 0, \"failures\": 1, \"test_suite\": \x7b\"t1\": \x7b\"status\": 0, \"expected\": 3, \"result\": 5, \"type\": 2\x7d\x7d\x7d\n").data,
  ("#-------- TESTING SECTION END --------#\n").data]

/-- A captured output file whose delimited region is the empty object `{}`. -/
def emptyObjFile : List Line := [
  ("#-------- TESTING SECTION START --------#\n").data,
  ("\x7b\x7d\n").data,
  ("#-------- TESTING SECTION END --------#\n").data]

/-- A captured output file whose region repeats the id key `a` with different values. -/
def dupFile : List Line := [
  ("#-------- TESTING SECTION START --------#\n").data,
  ("\x7b\"a\": 1, \"a\": 2\x7d\n").data,
  ("#-------- TESTING SECTION END --------#\n").data]

/-- A captured output file with no sentinels at all (e.g. a run killed before printing
its report). -/
def noReportFile : List Line := [("partial boot noise\n").data]

/-- A report whose `failures` counter is `0` even though its single case has
`status == 0` (the counter and the statuses disagree). -/
def mixedFile : List Line := [
  ("#-------- TESTING SECTION START --------#\n").data,
  ("\x7b\"version\": \"1.0\", \"name\": \"GM\", \"number_of_tests\": 1, \"success\": 1, \"failures\": 0, \"test_suite\": \x7b\"t1\": \x7b\"status\": 0, \"expected\": 1, \"result\": 2, \"type\": 3\x7d\x7d\x7d\n").data,
  ("#-------- TESTING SECTION END --------#\n").data]

/-- The parsed value of `mixedFile`'s region. -/
def jMixed : Json :=
  .obj [
    (("version").data, .str (("1.0").data)),
    (("name").data, .str (("GM").data)),
    (("number_of_tests").data, .num 1),
    (("success").data, .num 1),
    (("failures").data, .num 0),
    (("test_suite").data, .obj [
      (("t1").data, .obj [
        (("status").data, .num 0),
        (("expected").data, .num 1),
        (("result").data, .num 2),
        (("type").data, .num 3)])])]

/-- The name of the one flag used by the campaign fixtures. -/
def mutexN : Line := ("MUTEX").data

/-- A minimal test-list file with a single disabled flag definition. -/
def cfg0 : List Line := [mkFlagLine mutexN '0']

/-- `cfg0` after patching for a group enabling `MUTEX`. -/
def cfg0Patched : List Line := [mkFlagLine mutexN '1']

/-- A test-list file with neither a flag definition nor the section marker: the patcher
finds no anchor on it. -/
def cfgNoAnchor : List Line := [("hello world\n").data]

/-- A group enabling `MUTEX`. -/
def g0 : TestGroupJ := ⟨("G1").data, [mutexN]⟩

/-- Group environments around the fixture output files. -/
def envPass : GroupEnv := ⟨0, 0, 0, false, passFile⟩

/-- Environment of a run producing the one-failure report. -/
def envFail : GroupEnv := ⟨0, 0, 0, false, failFile⟩

/-- Environment of a run producing the duplicate-id region. -/
def envDup : GroupEnv := ⟨0, 0, 0, false, dupFile⟩

/-- Environment of a run producing the empty-object region. -/
def envEmptyObj : GroupEnv := ⟨0, 0, 0, false, emptyObjFile⟩

/-- Environment of a run that *exits non-zero* yet prints a fully passing report. -/
def envRunNonzero : GroupEnv := ⟨0, 0, 7, false, passFile⟩

/-- Environment of a run that times out and is killed before printing any sentinel. -/
def envTimeout : GroupEnv := ⟨0, 0, 0, true, noReportFile⟩

/-- Environment of a run producing the counter/status-disagreeing report. -/
def envMixed : GroupEnv := ⟨0, 0, 0, false, mixedFile⟩

/-- The name of the flag used by the duplicate-definition counterexamples. -/
def fooN : Line := ("FOO").data

/-- A configuration file defining the same flag `FOO` on two lines. -/
def cfgDup : List Line := [mkFlagLine fooN '0', mkFlagLine fooN '0']

/-- The structured fixture behind the C1/C4 amended-claim witnesses: a header comment,
the name marker, a disabled `MUTEX` definition and an *enabled* `SEMAPHORE` definition
left over from a previous group (spec §8, scenario 1). -/
def esW : List Entry := [
  .neutral (("/* config */\n").data),
  .nameDecl (("old_name").data),
  .flag (("MUTEX").data) '0',
  .flag (("SEMAPHORE").data) '1']

/-- The flag list of scenario 1's group. -/
def flagsW : List Line := [("MUTEX").data, ("QUEUE").data]

/-- The test name of scenario 1's group. -/
def tnW : Line := ("Basic").data

/-- A two-group campaign: one passing group, one failing group. -/
def groupsW : List (TestGroupJ × GroupEnv) := [(g0, envPass), (g0, envFail)]

/-- The valid target used by the fixtures. -/
def tgtOK : Line := ("x86_64").data

/-- An identifier outside `TARGET_LIST`. -/
def tgtBad : Line := ("riscv64").data

/-!
# Theorems

Helper lemmas first, then one theorem per claim (with its witness or counterexample).
-/

/-- One unfolding step of the group loop. -/
theorem runGroups_cons (cfg : List Line) (s : Summary) (g : TestGroupJ) (env : GroupEnv)
    (rest : List (TestGroupJ × GroupEnv)) :
    runGroups cfg s ((g, env) :: rest) =
      match runGroup cfg g env with
      | .error .patchAbort => .patchAborted { s with total := s.total + 1 }
      | .error (.uncaught e) => .crashed e { s with total := s.total + 1 }
      | .ok (cfg', o) => runGroups cfg' (applyOutcome { s with total := s.total + 1 } o) rest :=
  rfl

/-- `containsKey` decides key membership. -/
theorem containsKey_eq_true_iff (d : List (Line × Json)) (k : Line) :
    containsKey d k = true ↔ k ∈ d.map Prod.fst := by
  induction d with
  | nil => simp [containsKey]
  | cons p rest ih =>
    obtain ⟨k', v⟩ := p
    simp only [containsKey, List.map_cons, List.mem_cons, Bool.or_eq_true, decide_eq_true_eq, ih]
    constructor
    · rintro (h | h)
      · exact Or.inl h.symm
      · exact Or.inr h
    · rintro (h | h)
      · exact Or.inl h.symm
      · exact Or.inr h

/-- `dictBuild` raises on duplicate keys: if the accumulated keys are distinct but the
whole key sequence is not, some key is reported as a duplicate. -/
theorem dictBuild_error_of_dup :
    ∀ (ps d : List (Line × Json)), (d.map Prod.fst).Nodup →
    ¬ ((d.map Prod.fst ++ ps.map Prod.fst).Nodup) →
    ∃ k, dictBuild d ps = .error (.dupTestId k) := by
  intro ps
  induction ps with
  | nil =>
    intro d hd hnd
    simp at hnd
    exact absurd hd hnd
  | cons p rest ih =>
    intro d hd hnd
    obtain ⟨k, v⟩ := p
    by_cases hk : containsKey d k = true
    · exact ⟨k, by simp [dictBuild, hk]⟩
    · have hk' : k ∉ d.map Prod.fst := by
        rw [← containsKey_eq_true_iff]; simpa using hk
      have hd' : ((d ++ [(k, v)]).map Prod.fst).Nodup := by
        simp [List.nodup_append, hd, hk']
      have hnd' : ¬ (((d ++ [(k, v)]).map Prod.fst ++ rest.map Prod.fst).Nodup) := by
        intro hcon
        apply hnd
        simpa [List.append_assoc] using hcon
      obtain ⟨k₀, hk₀⟩ := ih (d ++ [(k, v)]) hd' hnd'
      exact ⟨k₀, by simp [dictBuild, hk, hk₀]⟩

/-- Claim C5: whenever the ordered pairs handed to the `object_pairs_hook` repeat a key
— with identical or different values — `DictRaiseDuplicate` raises the duplicate-id
`ValueError` during the parse, so no report value is produced. -/
theorem c5_duplicate_id_rejected (ordPairs : List (Line × Json))
    (hdup : ¬ ((ordPairs.map Prod.fst).Nodup)) :
    ∃ k, DictRaiseDuplicate ordPairs = .error (.dupTestId k) := by
  apply dictBuild_error_of_dup ordPairs [] (by simp)
  simpa using hdup

/-- Witness for C5 at a concrete input: the key `a` repeated with *different* values. -/
theorem c5_witness :
    (¬ (([((("a").data : Line), Json.num 1), ((("a").data : Line), Json.num 2)].map Prod.fst).Nodup)) ∧
    ∃ k, DictRaiseDuplicate [((("a").data : Line), Json.num 1), ((("a").data : Line), Json.num 2)] =
      .error (.dupTestId k) :=
  ⟨by decide, c5_duplicate_id_rejected _ (by decide)⟩

/-- Counterexample to claim C6: a group whose run command exits with status `7` is
nevertheless counted as a *success* (no group error), because the source discards the
result of `p.wait(30)` and the captured report validates with zero failures. -/
theorem c6_counterexample :
    envRunNonzero.runRet = 7 ∧
    runGroup cfg0 g0 envRunNonzero = .ok (cfg0Patched, .validatedPass) ∧
    runGroups cfg0 ⟨0, 0, 0⟩ [(g0, envRunNonzero)] = .completed ⟨1, 1, 0⟩ :=
  ⟨rfl, rfl, rfl⟩

/-- Claim C6, amended: the run command's exit status is ignored — the group's outcome is
exactly the same for any exit status, being determined by patching, the clean/build
statuses and the captured output alone; a non-zero run exit by itself does not end the
group as failed. -/
theorem c6_amended_run_exit_ignored (cfg : List Line) (g : TestGroupJ) (env : GroupEnv)
    (r : Int) :
    runGroup cfg g { env with runRet := r } = runGroup cfg g env := rfl

/-- Claim C10: a delimited region that is present (non-empty) but parses to a structured
value of length zero is handled exactly like the missing-report case — the group takes
the `missingReport` branch (validation is never reached) and contributes exactly one
group error, after which the campaign continues with the next group. -/
theorem c10_empty_object_treated_as_missing_report
    (cfg cfg' : List Line) (g : TestGroupJ) (env : GroupEnv) (j : Json) (s : Summary)
    (rest : List (TestGroupJ × GroupEnv))
    (hpatch : UpdateTestFile cfg g.group g.name = some cfg')
    (hclean : env.cleanRet = 0) (hbuild : env.buildRet = 0)
    (_hregion : extractBody env.outputLines false ≠ [])
    (hparse : ParseInputFile env.outputLines = .ok j)
    (hlen : pyLen j = .ok 0) :
    runGroup cfg g env = .ok (cfg', .missingReport) ∧
    runGroups cfg s ((g, env) :: rest) =
      runGroups cfg' ⟨s.total + 1, s.success, s.error + 1⟩ rest := by
  have h1 : runGroup cfg g env = .ok (cfg', .missingReport) := by
    unfold runGroup
    rw [hpatch, hclean, hbuild, hparse]
    simp [hlen]
  refine ⟨h1, ?_⟩
  rw [runGroups_cons, h1]
  rfl

/-- Witness for C10: a region holding exactly `{}`. -/
theorem c10_witness :
    extractBody envEmptyObj.outputLines false ≠ [] ∧
    ParseInputFile envEmptyObj.outputLines = .ok (.obj []) ∧
    runGroup cfg0 g0 envEmptyObj = .ok (cfg0Patched, .missingReport) ∧
    runGroups cfg0 ⟨0, 0, 0⟩ [(g0, envEmptyObj)] = runGroups cfg0Patched ⟨1, 0, 1⟩ [] :=
  ⟨by decide, rfl,
   c10_empty_object_treated_as_missing_report cfg0 cfg0Patched g0 envEmptyObj (.obj [])
     ⟨0, 0, 0⟩ [] rfl rfl rfl (by decide) rfl rfl⟩

/-- Claim C7: a timed-out run is handled through the same data path as any other run —
the group's outcome never depends on the timeout flag (the captured partial output is
kept and extraction is attempted on it), and when the extracted region is empty the
group is handled exactly as the normal missing-report case: one group error, and the
campaign continues with the next group.  (The forcible `p.kill()` itself is an external
process effect; in the model it is exactly the fact that the timeout has no further
observable consequence.) -/
theorem c7_timeout_output_still_extracted
    (cfg cfg' : List Line) (g : TestGroupJ) (env : GroupEnv) (b : Bool) (s : Summary)
    (rest : List (TestGroupJ × GroupEnv)) :
    runGroup cfg g { env with runTimedOut := b } = runGroup cfg g env ∧
    (UpdateTestFile cfg g.group g.name = some cfg' →
     env.cleanRet = 0 → env.buildRet = 0 →
     extractBody env.outputLines false = [] →
     runGroup cfg g env = .ok (cfg', .missingReport) ∧
     runGroups cfg s ((g, env) :: rest) =
       runGroups cfg' ⟨s.total + 1, s.success, s.error + 1⟩ rest) := by
  refine ⟨rfl, fun hpatch hclean hbuild hempty => ?_⟩
  have hparse : ParseInputFile env.outputLines = .ok (.str []) := by
    unfold ParseInputFile
    rw [hempty]
    rfl
  have h1 : runGroup cfg g env = .ok (cfg', .missingReport) := by
    unfold runGroup
    rw [hpatch, hclean, hbuild, hparse]
    simp [pyLen]
  refine ⟨h1, ?_⟩
  rw [runGroups_cons, h1]
  rfl

/-- Witness for C7: a run that timed out and was killed before printing any sentinel;
its partial output has an empty region and the group ends as one error, the campaign
moving on. -/
theorem c7_witness :
    envTimeout.runTimedOut = true ∧
    runGroup cfg0 g0 envTimeout = .ok (cfg0Patched, .missingReport) ∧
    runGroups cfg0 ⟨0, 0, 0⟩ [(g0, envTimeout)] = runGroups cfg0Patched ⟨1, 0, 1⟩ [] :=
  ⟨rfl,
   ((c7_timeout_output_still_extracted cfg0 cfg0Patched g0 envTimeout true ⟨0, 0, 0⟩ []).2
     rfl rfl rfl rfl).1,
   ((c7_timeout_output_still_extracted cfg0 cfg0Patched g0 envTimeout true ⟨0, 0, 0⟩ []).2
     rfl rfl rfl rfl).2⟩

/-- Counterexample to claim C3: a campaign of two groups where the first group's region
is non-empty but repeats an id key.  The claim predicts one group error for the first
group and a continuing campaign (two groups attempted); in fact the `ValueError` escapes
`ParseInputFile` uncaught, the process crashes with the error counter still `0`, and the
second group is never attempted. -/
theorem c3_counterexample :
    extractBody envDup.outputLines false ≠ [] ∧
    ParseInputFile envDup.outputLines = .error (.dupTestId (("a").data)) ∧
    mainRun tgtOK cfg0 [(g0, envDup), (g0, envPass)] =
      ⟨false, .crashed (.dupTestId (("a").data)) ⟨1, 0, 0⟩⟩ :=
  ⟨by decide, rfl, rfl⟩

/-- Claim C3, amended: when a group's delimited region fails to parse (malformed data or
a duplicate id key), the exception is not caught anywhere in `__main__`: the campaign
terminates at once with that exception, no group error is counted for the group, and the
remaining groups are not attempted. -/
theorem c3_amended_parse_failure_crashes_campaign
    (cfg cfg' : List Line) (g : TestGroupJ) (env : GroupEnv) (e : PyErr) (s : Summary)
    (rest : List (TestGroupJ × GroupEnv))
    (hpatch : UpdateTestFile cfg g.group g.name = some cfg')
    (hclean : env.cleanRet = 0) (hbuild : env.buildRet = 0)
    (hparse : ParseInputFile env.outputLines = .error e) :
    runGroups cfg s ((g, env) :: rest) = .crashed e ⟨s.total + 1, s.success, s.error⟩ := by
  have h1 : runGroup cfg g env = .error (.uncaught e) := by
    unfold runGroup
    rw [hpatch, hclean, hbuild, hparse]
    simp
  rw [runGroups_cons, h1]

/-- Witness for C3 (amended): the duplicate-id region crashes a campaign regardless of
the groups that follow. -/
theorem c3_amended_witness :
    ParseInputFile envDup.outputLines = .error (.dupTestId (("a").data)) ∧
    runGroups cfg0 ⟨0, 0, 0⟩ [(g0, envDup), (g0, envPass)] =
      .crashed (.dupTestId (("a").data)) ⟨1, 0, 0⟩ :=
  ⟨rfl,
   c3_amended_parse_failure_crashes_campaign cfg0 cfg0Patched g0 envDup
     (.dupTestId (("a").data)) ⟨0, 0, 0⟩ [(g0, envPass)] rfl rfl rfl rfl⟩

/-- Counterexample to claim C9: with an unknown target and one fully passing group, the
message is reported and execution proceeds, but the final summary figures are *not*
empty — the campaign runs every group and reports `total = 1`, `success = 1`. -/
theorem c9_counterexample :
    tgtBad ∉ TARGET_LIST ∧
    mainRun tgtBad cfg0 [(g0, envPass)] = ⟨true, .completed ⟨1, 1, 0⟩⟩ ∧
    (Summary.mk 1 1 0).total ≠ 0 :=
  ⟨by decide, rfl, by decide⟩

/-- Claim C9, amended: an unknown target identifier is reported but does not abort, and
the campaign then proceeds exactly as it would for any other target string — the final
summary reflects the attempted groups and is in no way emptied by the bad target. -/
theorem c9_amended_unknown_target_reported_and_proceeds
    (t t' : Line) (cfg : List Line) (gs : List (TestGroupJ × GroupEnv)) :
    (mainRun t cfg gs).outcome = (mainRun t' cfg gs).outcome ∧
    (t ∉ TARGET_LIST → (mainRun t cfg gs).unknownTargetReported = true) := by
  refine ⟨rfl, fun h => ?_⟩
  simp [mainRun, h]

/-- Witness for C9 (amended): the unknown target `riscv64` is reported, and the campaign
outcome is identical to the one under the valid target `x86_64`. -/
theorem c9_amended_witness :
    tgtBad ∉ TARGET_LIST ∧
    (mainRun tgtBad cfg0 [(g0, envPass)]).outcome = (mainRun tgtOK cfg0 [(g0, envPass)]).outcome ∧
    (mainRun tgtBad cfg0 [(g0, envPass)]).unknownTargetReported = true :=
  ⟨by decide,
   (c9_amended_unknown_target_reported_and_proceeds tgtBad tgtOK cfg0 [(g0, envPass)]).1,
   (c9_amended_unknown_target_reported_and_proceeds tgtBad tgtOK cfg0 [(g0, envPass)]).2
     (by decide)⟩

/-- Counter accounting of the campaign loop: a campaign that reaches the final report
attempted every remaining group, each contributing to exactly one of the two verdict
counters. -/
theorem runGroups_completed_counts :
    ∀ (gs : List (TestGroupJ × GroupEnv)) (cfg : List Line) (s s' : Summary),
    runGroups cfg s gs = .completed s' →
    s'.total = s.total + gs.length ∧
    s'.success + s'.error = s.success + s.error + gs.length := by
  intro gs
  induction gs with
  | nil =>
    intro cfg s s' h
    simp only [runGroups, MainOutcome.completed.injEq] at h
    subst h
    simp
  | cons p rest ih =>
    intro cfg s s' h
    obtain ⟨g, env⟩ := p
    simp only [runGroups] at h
    rcases hrg : runGroup cfg g env with e | r
    · rcases e with _ | e <;> rw [hrg] at h <;> exact absurd h (by simp)
    · obtain ⟨cfg', o⟩ := r
      rw [hrg] at h
      have hc := ih cfg' _ s' h
      rcases o <;> simp [applyOutcome] at hc ⊢ <;> omega

/-- Claim C2, amended: whenever the campaign runs to completion (no fatal patch abort
and no uncaught parse/validate exception), the process exit status equals the final
error counter, every group was attempted and contributed to exactly one counter, and the
exit status is `0` exactly when every attempted group was patched, built, run, extracted
and validated with zero failures (i.e. when the success counter equals the number of
groups). -/
theorem c2_amended_exit_equals_error_count
    (target : Line) (cfg : List Line) (groups : List (TestGroupJ × GroupEnv)) (s' : Summary)
    (h : (mainRun target cfg groups).outcome = .completed s') :
    exitStatus ((mainRun target cfg groups).outcome) = s'.error ∧
    s'.total = groups.length ∧
    s'.success + s'.error = groups.length ∧
    (s'.error = 0 ↔ s'.success = groups.length) := by
  have hc := runGroups_completed_counts groups cfg ⟨0, 0, 0⟩ s' (by simpa [mainRun] using h)
  simp only [Summary.mk.injEq] at hc
  obtain ⟨h1, h2⟩ := hc
  simp at h1 h2
  rw [h]
  refine ⟨rfl, ?_, ?_, ?_⟩ <;> omega

/-- Witness for C2 (amended): a two-group campaign (one pass, one fail) completes with
counters `⟨2, 1, 1⟩` and exit status `1`. -/
theorem c2_amended_witness :
    (mainRun tgtOK cfg0 groupsW).outcome = .completed ⟨2, 1, 1⟩ ∧
    exitStatus ((mainRun tgtOK cfg0 groupsW).outcome) = 1 :=
  ⟨rfl, (c2_amended_exit_equals_error_count tgtOK cfg0 groupsW ⟨2, 1, 1⟩ rfl).1⟩

/-- `Except.ok` feeds a `do` bind directly. -/
theorem except_ok_bind {α β : Type} (a : α) (f : α → Except PyErr β) :
    (Except.ok a >>= f) = f a := rfl

/-- A dict in which a lookup succeeds is not empty. -/
theorem jLookup_ne_nil {d : List (Line × Json)} {k : Line} {v : Json}
    (h : jLookup d k = some v) : d ≠ [] := by
  cases d with
  | nil => simp [jLookup] at h
  | cons p rest => simp

/-- Indexing `TYPE_STR` with an in-range (possibly negative) index succeeds. -/
theorem pyIndex_TYPE_STR_ok (t : Int) (h1 : -12 ≤ t) (h2 : t < 12) :
    ∃ y, pyIndex TYPE_STR t = .ok y := by
  have hl : ((TYPE_STR.length : Nat) : Int) = 12 := rfl
  simp only [pyIndex]
  split
  · rename_i ht
    rw [dif_pos (by rw [hl]; omega)]
    exact ⟨_, rfl⟩
  · rename_i ht
    rw [dif_pos (by rw [hl]; omega)]
    exact ⟨_, rfl⟩

/-- Schema-conformant cases drive the per-case loop to completion. -/
theorem checkCases_ok :
    ∀ cs : List (Line × Json), (cs.all fun p => caseOKB p.2) = true →
    checkCases cs = .ok () := by
  intro cs
  induction cs with
  | nil => intro _; rfl
  | cons p rest ih =>
    intro hall
    obtain ⟨tid, tc⟩ := p
    rw [List.all_cons, Bool.and_eq_true] at hall
    obtain ⟨htc, hrest⟩ := hall
    cases tc with
    | obj c =>
      simp only [caseOKB, Bool.and_eq_true] at htc
      obtain ⟨⟨⟨hst, hex⟩, hres⟩, hty⟩ := htc
      obtain ⟨st, hst'⟩ := Option.isSome_iff_exists.mp hst
      have hget : pyGetItem (.obj c) (("status").data) = .ok st := by
        simp [pyGetItem, hst']
      rcases hex' : jLookup c (("expected").data) with _ | je <;> rw [hex'] at hex <;>
        try simp at hex
      rcases je with _ | _ | ne | _ | _ | _ <;> try simp at hex
      rcases hres' : jLookup c (("result").data) with _ | jr <;> rw [hres'] at hres <;>
        try simp at hres
      rcases jr with _ | _ | nr | _ | _ | _ <;> try simp at hres
      rcases hty' : jLookup c (("type").data) with _ | jt <;> rw [hty'] at hty <;>
        try simp at hty
      rcases jt with _ | _ | nt | _ | _ | _ <;> try simp at hty
      obtain ⟨y, hy⟩ := pyIndex_TYPE_STR_ok nt hty.1 hty.2
      cases hz : pyEqZero st with
      | false =>
        simp only [checkCases, hget, except_ok_bind, hz]
        simp only [Bool.false_eq_true, if_false]
        exact ih hrest
      | true =>
        simp only [checkCases, hget, except_ok_bind, hz, if_true]
        simp only [pyGetItem, hex', hres', hty', except_ok_bind, asIntLike, hy]
        exact ih hrest
    | null => simp [caseOKB] at htc
    | bool b => simp [caseOKB] at htc
    | num n => simp [caseOKB] at htc
    | str s => simp [caseOKB] at htc
    | arr xs => simp [caseOKB] at htc

/-- Claim C8: for a successfully parsed report matching the `TestSuiteReport` schema,
the verdict is decided solely by the report's `failures` counter: `Validate` returns it
unchanged — even when some case entry has `status == 0` while `failures` is `0`, since
the per-case statuses are never re-counted — and the group is a success exactly when
that counter is `0`. -/
theorem c8_verdict_by_failures_counter
    (j : Json) (f : Int) (cfg cfg' : List Line) (g : TestGroupJ) (env : GroupEnv)
    (hwf : WFReportB j = true)
    (hfail : pyGetItem j (("failures").data) = .ok (.num f)) :
    Validate j = .ok f ∧
    (UpdateTestFile cfg g.group g.name = some cfg' →
     env.cleanRet = 0 → env.buildRet = 0 →
     ParseInputFile env.outputLines = .ok j →
     runGroup cfg g env =
       .ok (cfg', if f = 0 then .validatedPass else .validatedFail f)) := by
  cases j with
  | obj d =>
    simp only [WFReportB, Bool.and_eq_true] at hwf
    obtain ⟨⟨⟨⟨⟨hver, hname⟩, hnt⟩, hsc⟩, hfl⟩, hts⟩ := hwf
    rcases hver' : jLookup d (("version").data) with _ | jv <;> rw [hver'] at hver <;>
      try simp at hver
    rcases jv with _ | _ | _ | sv | _ | _ <;> try simp at hver
    rcases hname' : jLookup d (("name").data) with _ | jn <;> rw [hname'] at hname <;>
      try simp at hname
    rcases jn with _ | _ | _ | sn | _ | _ <;> try simp at hname
    rcases hnt' : jLookup d (("number_of_tests").data) with _ | jt <;> rw [hnt'] at hnt <;>
      try simp at hnt
    rcases jt with _ | _ | nt | _ | _ | _ <;> try simp at hnt
    rcases hsc' : jLookup d (("success").data) with _ | js <;> rw [hsc'] at hsc <;>
      try simp at hsc
    rcases js with _ | _ | ns | _ | _ | _ <;> try simp at hsc
    have hflq : jLookup d (("failures").data) = some (.num f) := by
      rcases hq : jLookup d (("failures").data) with _ | v
      · rw [hq] at hfl; simp at hfl
      · simp only [pyGetItem, hq] at hfail
        injection hfail with h
        rw [h]
    rcases hts' : jLookup d (("test_suite").data) with _ | jsuite <;> rw [hts'] at hts <;>
      try simp at hts
    rcases jsuite with _ | _ | _ | _ | _ | cases' <;> try simp at hts
    have hval : Validate (.obj d) = .ok f := by
      simp only [Validate, pyGetItem, hver', hname', hnt', hsc', hflq, hts',
        except_ok_bind, asStr, asIntLike, asObj, checkCases_ok cases' hts]
    refine ⟨hval, fun hpatch hclean hbuild hparse => ?_⟩
    have hdne : d ≠ [] := jLookup_ne_nil hflq
    have hlen : d.length ≠ 0 := by simpa [List.length_eq_zero] using hdne
    unfold runGroup
    rw [hpatch, hclean, hbuild, hparse]
    simp [pyLen, hlen, hval]
  | null => simp [WFReportB] at hwf
  | bool b => simp [WFReportB] at hwf
  | num n => simp [WFReportB] at hwf
  | str s => simp [WFReportB] at hwf
  | arr xs => simp [WFReportB] at hwf

/-- Witness for C8: `jMixed` has `failures == 0` while its single case has
`status == 0`; `Validate` still returns `0` and the group counts as a success. -/
theorem c8_witness :
    WFReportB jMixed = true ∧
    ParseInputFile envMixed.outputLines = .ok jMixed ∧
    Validate jMixed = .ok 0 ∧
    runGroup cfg0 g0 envMixed = .ok (cfg0Patched, .validatedPass) :=
  ⟨rfl, rfl,
   (c8_verdict_by_failures_counter jMixed 0 cfg0 cfg0Patched g0 envMixed rfl rfl).1,
   by
     have h := (c8_verdict_by_failures_counter jMixed 0 cfg0 cfg0Patched g0 envMixed
       rfl rfl).2 rfl rfl rfl rfl
     simpa using h⟩

/-- Counterexample to claim C2: a one-group campaign whose configuration file has no
anchor.  The patcher calls `exit(-1)`, so the process exit status is `-1`; but the final
error counter at that point is `0` and the number of groups whose cycle did not end in a
validated zero-failure report is `1` — the exit status equals neither. -/
theorem c2_counterexample :
    (mainRun tgtOK cfgNoAnchor [(g0, envPass)]).outcome = .patchAborted ⟨1, 0, 0⟩ ∧
    exitStatus ((mainRun tgtOK cfgNoAnchor [(g0, envPass)]).outcome) = -1 ∧
    (Summary.mk 1 0 0).error = 0 ∧
    ((-1 : Int) ≠ 0 ∧ (-1 : Int) ≠ 1) :=
  ⟨rfl, rfl, rfl, by decide⟩

/-! ### The patcher on well-formed structured files (claims C1 and C4) -/

/-- The literal heads concatenate. -/
theorem define_test_concat (n : Line) :
    ("#define ").data ++ (testHead ++ n ++ enabledTail) =
      ("#define TEST_").data ++ n ++ ("_ENABLED").data := by
  have h1 : ("#define ").data ++ testHead = ("#define TEST_").data := by decide
  have h2 : enabledTail = ("_ENABLED").data := rfl
  rw [← h1, h2]
  simp [List.append_assoc]

/-- Disabling the recognized pattern of a canonical flag line yields the canonical
disabled line. -/
theorem disabledLineOf_flagPat (n : Line) :
    disabledLineOf (flagPat n) = mkFlagLine n '0' := by
  unfold disabledLineOf mkFlagLine flagPat
  rw [define_test_concat]

/-- The enabled line the patcher formats is the canonical enabled line. -/
theorem enabledLineOf_eq (f : Line) : enabledLineOf f = mkFlagLine f '1' := rfl

/-- Unpacking `neutralOKB`. -/
theorem neutralOKB_spec {l : Line} {U : List Line} (h : neutralOKB l U = true) :
    searchTestEnabled l = none ∧ containsSub namePat l = false ∧
    ∀ f ∈ U, containsSub (flagPat f) l = false := by
  simp only [neutralOKB, Bool.and_eq_true, Option.isNone_iff_eq_none, Bool.not_eq_true',
    List.all_eq_true] at h
  exact ⟨h.1.1, h.1.2, h.2⟩

/-- Unpacking `nameLineOKB`. -/
theorem nameLineOKB_spec {s : Line} {U : List Line} (h : nameLineOKB s U = true) :
    containsSub namePat (nameLineOf s) = true ∧ searchTestEnabled (nameLineOf s) = none ∧
    ∀ f ∈ U, containsSub (flagPat f) (nameLineOf s) = false := by
  simp only [nameLineOKB, Bool.and_eq_true, Option.isNone_iff_eq_none, Bool.not_eq_true',
    List.all_eq_true] at h
  exact ⟨h.1.1, h.1.2, h.2⟩

/-- Unpacking `flagNameOKB`. -/
theorem flagNameOKB_spec {n : Line} {U : List Line} (h : flagNameOKB n U = true) :
    (∀ v, v = '0' ∨ v = '1' → searchTestEnabled (mkFlagLine n v) = some (flagPat n)) ∧
    (∀ v, v = '0' ∨ v = '1' → containsSub namePat (mkFlagLine n v) = false) ∧
    (∀ v, v = '0' ∨ v = '1' → containsSub (flagPat n) (mkFlagLine n v) = true) ∧
    (∀ f ∈ U, f ≠ n → ∀ v, v = '0' ∨ v = '1' →
      containsSub (flagPat f) (mkFlagLine n v) = false) := by
  simp only [flagNameOKB, Bool.and_eq_true, Bool.not_eq_true', decide_eq_true_eq,
    Bool.or_eq_true, List.all_eq_true] at h
  obtain ⟨⟨⟨⟨⟨⟨h0, h1⟩, hn0⟩, hn1⟩, hs0⟩, hs1⟩, hU⟩ := h
  refine ⟨?_, ?_, ?_, ?_⟩
  · rintro v (rfl | rfl) <;> assumption
  · rintro v (rfl | rfl) <;> assumption
  · rintro v (rfl | rfl) <;> assumption
  · intro f hf hne v hv
    rcases hU f hf with heq | hc
    · exact absurd heq hne
    · rcases hv with rfl | rfl
      · exact hc.1
      · exact hc.2

/-- Unpacking `entryOKB` on a flag entry. -/
theorem entryOKB_flag_spec {n : Line} {v : Char} {U : List Line}
    (h : entryOKB U (.flag n v) = true) :
    (v = '0' ∨ v = '1') ∧ flagNameOKB n U = true := by
  simp only [entryOKB, Bool.and_eq_true, Bool.or_eq_true, decide_eq_true_eq] at h
  exact h

/-- Unpacking `WFcheck`. -/
theorem WFcheck_spec {es : List Entry} {flags : List Line} {tn : Line}
    (h : WFcheck es flags tn = true) :
    (∀ e ∈ es, entryOKB (flags ++ flagNames es) e = true) ∧
    (∀ f ∈ flags, flagNameOKB f (flags ++ flagNames es) = true) ∧
    nameLineOKB tn (flags ++ flagNames es) = true ∧
    (flagNames es).Nodup ∧ nameCount es ≤ 1 := by
  simp only [WFcheck, Bool.and_eq_true, List.all_eq_true, decide_eq_true_eq] at h
  exact ⟨h.1.1.1.1, h.1.1.1.2, h.1.1.2, h.1.2, h.2⟩

/-- `flagNames` distributes over append. -/
theorem flagNames_append (a b : List Entry) :
    flagNames (a ++ b) = flagNames a ++ flagNames b := by
  simp [flagNames, List.filterMap_append]

/-- Membership in `flagNames`. -/
theorem mem_flagNames {n : Line} {es : List Entry} :
    n ∈ flagNames es ↔ ∃ v, Entry.flag n v ∈ es := by
  simp only [flagNames, List.mem_filterMap]
  constructor
  · rintro ⟨e, he, hm⟩
    cases e with
    | flag m w =>
      have hmn : some m = some n := hm
      injection hmn with h
      subst h
      exact ⟨w, he⟩
    | neutral l => simp at hm
    | nameDecl s => simp at hm
  · rintro ⟨v, hv⟩
    exact ⟨.flag n v, hv, rfl⟩

/-- `disableEntry` keeps flag names. -/
theorem flagNames_map_disable (tn : Line) (es : List Entry) :
    flagNames (es.map (disableEntry tn)) = flagNames es := by
  induction es with
  | nil => rfl
  | cons e rest ih => cases e <;> simp [flagNames, disableEntry] at ih ⊢ <;> exact ih

/-- `enableValsE` keeps flag names. -/
theorem flagNames_map_enableVals (fs : List Line) (es : List Entry) :
    flagNames (es.map (enableValsE fs)) = flagNames es := by
  induction es with
  | nil => rfl
  | cons e rest ih => cases e <;> simp [flagNames, enableValsE] at ih ⊢ <;> exact ih

/-- `setFlagTo1` keeps flag names. -/
theorem flagNames_map_setFlag (f : Line) (es : List Entry) :
    flagNames (es.map (setFlagTo1 f)) = flagNames es := by
  induction es with
  | nil => rfl
  | cons e rest ih =>
    cases e with
    | flag n v =>
      by_cases h : n = f
      · subst h
        simp [flagNames, setFlagTo1] at ih ⊢
        exact ih
      · simp [flagNames, setFlagTo1, h] at ih ⊢
        exact ih
    | neutral l => simp [flagNames, setFlagTo1] at ih ⊢; exact ih
    | nameDecl s => simp [flagNames, setFlagTo1] at ih ⊢; exact ih

/-- `disableEntry` keeps the first-flag index. -/
theorem firstFlagIdx_map_disable (tn : Line) (es : List Entry) :
    firstFlagIdx (es.map (disableEntry tn)) = firstFlagIdx es := by
  induction es with
  | nil => rfl
  | cons e rest ih => cases e <;> simp [firstFlagIdx, disableEntry, ih]

/-- `disableEntry` keeps the name-marker count. -/
theorem nameCount_map_disable (tn : Line) (es : List Entry) :
    nameCount (es.map (disableEntry tn)) = nameCount es := by
  induction es with
  | nil => rfl
  | cons e rest ih => cases e <;> simp [nameCount, disableEntry] at ih ⊢ <;> omega

/-- One unfolding step of the first scan. -/
theorem pass1_cons (tn l : Line) (ls : List Line) (b : Bool) :
    pass1 tn (l :: ls) b =
      if !b && containsSub namePat l then
        ((nameLineOf tn :: (pass1 tn ls true).1),
         ((pass1 tn ls true).2.1, (pass1 tn ls true).2.2.map (· + 1)))
      else
        match searchTestEnabled l with
        | some m =>
          ((disabledLineOf m :: (pass1 tn ls b).1), ((pass1 tn ls b).2.1, some 0))
        | none =>
          ((l :: (pass1 tn ls b).1),
           ((pass1 tn ls b).2.1, (pass1 tn ls b).2.2.map (· + 1))) := rfl

/-- Rendering a cons. -/
theorem render_cons (e : Entry) (es : List Entry) :
    render (e :: es) = renderEntry e :: render es := rfl

/-- Name-marker count of a cons on a neutral line. -/
theorem nameCount_cons_neutral (l : Line) (es : List Entry) :
    nameCount (.neutral l :: es) = nameCount es := by
  simp [nameCount, List.filter]

/-- Name-marker count of a cons on a flag line. -/
theorem nameCount_cons_flag (n : Line) (v : Char) (es : List Entry) :
    nameCount (.flag n v :: es) = nameCount es := by
  simp [nameCount, List.filter]

/-- Name-marker count of a cons on a name marker. -/
theorem nameCount_cons_name (s : Line) (es : List Entry) :
    nameCount (.nameDecl s :: es) = nameCount es + 1 := by
  simp [nameCount, List.filter]

/-- The first scan on a rendered well-formed file disables every flag definition,
rewrites the (unique) name marker, and reports the index of the first flag definition as
the anchor. -/
theorem pass1_model (tn : Line) (U : List Line) :
    ∀ (es : List Entry) (b : Bool),
    (∀ e ∈ es, entryOKB U e = true) →
    nameCount es ≤ 1 →
    (b = true → nameCount es = 0) →
    (pass1 tn (render es) b).1 = render (es.map (disableEntry tn)) ∧
    (pass1 tn (render es) b).2.2 = firstFlagIdx es := by
  intro es
  induction es with
  | nil => intro b _ _ _; exact ⟨rfl, rfl⟩
  | cons e rest ih =>
    intro b hok h1 h0
    have hok_e : entryOKB U e = true := hok e (List.mem_cons_self e rest)
    have hok_rest : ∀ x ∈ rest, entryOKB U x = true :=
      fun x hx => hok x (List.mem_cons_of_mem _ hx)
    cases e with
    | neutral l =>
      obtain ⟨hse, hnp, _⟩ := neutralOKB_spec (by simpa [entryOKB] using hok_e)
      rw [nameCount_cons_neutral] at h1 h0
      have hrec := ih b hok_rest h1 h0
      rw [render_cons]
      simp only [renderEntry, List.map_cons, disableEntry, render_cons, pass1_cons, hnp, hse,
        Bool.and_false, Bool.false_eq_true, if_false]
      rw [hrec.1, hrec.2]
      exact ⟨rfl, by simp [firstFlagIdx]⟩
    | nameDecl s =>
      obtain ⟨hnp, hse, _⟩ := nameLineOKB_spec (by simpa [entryOKB] using hok_e)
      cases b with
      | true =>
        have h00 := h0 rfl
        rw [nameCount_cons_name] at h00
        omega
      | false =>
        rw [nameCount_cons_name] at h1
        have hrest0 : nameCount rest = 0 := by omega
        have hrec := ih true hok_rest (by omega) (fun _ => hrest0)
        rw [render_cons]
        simp only [renderEntry, List.map_cons, disableEntry, render_cons, pass1_cons, hnp,
          Bool.not_false, Bool.true_and, if_true]
        rw [hrec.1, hrec.2]
        exact ⟨rfl, by simp [firstFlagIdx]⟩
    | flag n v =>
      obtain ⟨hv, hok_n⟩ := entryOKB_flag_spec hok_e
      have hspec := flagNameOKB_spec hok_n
      have hse := hspec.1 v hv
      have hnp := hspec.2.1 v hv
      rw [nameCount_cons_flag] at h1 h0
      have hrec := ih b hok_rest h1 h0
      rw [render_cons]
      simp only [renderEntry, List.map_cons, disableEntry, render_cons, pass1_cons, hnp, hse,
        Bool.and_false, Bool.false_eq_true, if_false]
      rw [hrec.1]
      refine ⟨?_, by simp [firstFlagIdx]⟩
      rw [disabledLineOf_flagPat]

/-- `flagNames` on a flag cons. -/
theorem flagNames_cons_flag (n : Line) (v : Char) (es : List Entry) :
    flagNames (.flag n v :: es) = n :: flagNames es := by
  simp [flagNames]

/-- `flagNames` on a neutral cons. -/
theorem flagNames_cons_neutral (l : Line) (es : List Entry) :
    flagNames (.neutral l :: es) = flagNames es := by
  simp [flagNames]

/-- `flagNames` on a name-marker cons. -/
theorem flagNames_cons_name (s : Line) (es : List Entry) :
    flagNames (.nameDecl s :: es) = flagNames es := by
  simp [flagNames]

/-- The index-`k` search skips exactly a length-`k` prefix. -/
theorem replaceFrom_skip (pat new : Line) :
    ∀ (A ls : List Line), replaceFrom pat new A.length (A ++ ls) =
      (replaceFrom pat new 0 ls).map (A ++ ·) := by
  intro A
  induction A with
  | nil =>
    intro ls
    simp only [List.nil_append, List.length_nil]
    cases replaceFrom pat new 0 ls <;> simp
  | cons a A ih =>
    intro ls
    have hstep : replaceFrom pat new (a :: A).length ((a :: A) ++ ls) =
        (replaceFrom pat new A.length (A ++ ls)).map (a :: ·) := rfl
    rw [hstep, ih]
    cases replaceFrom pat new 0 ls <;> simp

/-- The index-`0` search on a rendered file is the entry-level search. -/
theorem replaceFrom0_entries (f : Line) :
    ∀ es : List Entry, replaceFrom (flagPat f) (enabledLineOf f) 0 (render es) =
      (replaceFirstE f es).map render := by
  intro es
  induction es with
  | nil => rfl
  | cons e rest ih =>
    rw [render_cons]
    simp only [replaceFrom, replaceFirstE]
    cases h : containsSub (flagPat f) (renderEntry e) with
    | true => simp [h, enabledLineOf_eq, render_cons, renderEntry]
    | false =>
      simp only [h, Bool.false_eq_true, if_false, ih]
      cases replaceFirstE f rest <;> simp [render_cons]

/-- Inserting right after a length-`p` prefix, at the line level. -/
theorem insertAt_render (A : List Entry) (e₀ x : Entry) (tailE : List Entry) :
    insertAt (A.length + 1) (renderEntry x) (render (A ++ e₀ :: tailE)) =
      render (A ++ e₀ :: x :: tailE) := by
  induction A with
  | nil => simp [insertAt, render]
  | cons a A ih =>
    simp only [List.cons_append, render_cons, List.length_cons, insertAt] at ih ⊢
    simp only [List.take_succ_cons, List.drop_succ_cons]
    simp only [List.cons_append, List.append_assoc] at ih ⊢
    rw [ih]

/-- Under well-formedness, a flag's pattern fires on a flag definition exactly of that
flag. -/
theorem hit_flag {U : List Line} {f n : Line} {v : Char} (hfU : f ∈ U)
    (hok : entryOKB U (.flag n v) = true) :
    containsSub (flagPat f) (renderEntry (.flag n v)) = if n = f then true else false := by
  obtain ⟨hv, hok_n⟩ := entryOKB_flag_spec hok
  have hspec := flagNameOKB_spec hok_n
  by_cases h : n = f
  · subst h
    simp only [if_pos rfl]
    exact hspec.2.2.1 v hv
  · simp only [if_neg h]
    exact hspec.2.2.2 f hfU (fun he => h he.symm) v hv

/-- Under well-formedness, a flag's pattern never fires on a non-flag entry. -/
theorem hit_nonflag {U : List Line} {f : Line} {e : Entry} (hfU : f ∈ U)
    (hok : entryOKB U e = true) (hnf : isFlagE e = false) :
    containsSub (flagPat f) (renderEntry e) = false := by
  cases e with
  | neutral l => exact (neutralOKB_spec (by simpa [entryOKB] using hok)).2.2 f hfU
  | nameDecl s => exact (nameLineOKB_spec (by simpa [entryOKB] using hok)).2.2 f hfU
  | flag n v => simp [isFlagE] at hnf

/-- `setFlagTo1 f` is the identity on files not defining `f`. -/
theorem setFlag_skip {f : Line} :
    ∀ es : List Entry, f ∉ flagNames es → es.map (setFlagTo1 f) = es := by
  intro es
  induction es with
  | nil => intro _; rfl
  | cons e rest ih =>
    intro hmem
    cases e with
    | flag n v =>
      rw [flagNames_cons_flag, List.mem_cons] at hmem
      push_neg at hmem
      have hn : n ≠ f := fun h => hmem.1 h.symm
      simp [setFlagTo1, hn, ih hmem.2]
    | neutral l =>
      rw [flagNames_cons_neutral] at hmem
      simp [setFlagTo1, ih hmem]
    | nameDecl s =>
      rw [flagNames_cons_name] at hmem
      simp [setFlagTo1, ih hmem]

/-- When `f` is not defined anywhere, the entry-level search fails. -/
theorem replaceFirstE_none {U : List Line} {f : Line} (hfU : f ∈ U) :
    ∀ es : List Entry, (∀ e ∈ es, entryOKB U e = true) → f ∉ flagNames es →
    replaceFirstE f es = none := by
  intro es
  induction es with
  | nil => intro _ _; rfl
  | cons e rest ih =>
    intro hok hmem
    have hok_e := hok e (List.mem_cons_self e rest)
    have hok_rest : ∀ x ∈ rest, entryOKB U x = true :=
      fun x hx => hok x (List.mem_cons_of_mem _ hx)
    cases e with
    | flag n v =>
      rw [flagNames_cons_flag, List.mem_cons] at hmem
      push_neg at hmem
      have hn : n ≠ f := fun h => hmem.1 h.symm
      have hhit : containsSub (flagPat f) (renderEntry (.flag n v)) = false := by
        rw [hit_flag hfU hok_e, if_neg hn]
      simp [replaceFirstE, hhit, ih hok_rest hmem.2]
    | neutral l =>
      rw [flagNames_cons_neutral] at hmem
      have hhit := hit_nonflag hfU hok_e (e := .neutral l) rfl
      simp [replaceFirstE, hhit, ih hok_rest hmem]
    | nameDecl s =>
      rw [flagNames_cons_name] at hmem
      have hhit := hit_nonflag hfU hok_e (e := .nameDecl s) rfl
      simp [replaceFirstE, hhit, ih hok_rest hmem]

/-- When `f` is defined (uniquely), the entry-level search enables exactly its
definition. -/
theorem replaceFirstE_found {U : List Line} {f : Line} (hfU : f ∈ U) :
    ∀ es : List Entry, (∀ e ∈ es, entryOKB U e = true) → (flagNames es).Nodup →
    f ∈ flagNames es →
    replaceFirstE f es = some (es.map (setFlagTo1 f)) := by
  intro es
  induction es with
  | nil => intro _ _ h; simp [flagNames] at h
  | cons e rest ih =>
    intro hok hnd hmem
    have hok_e := hok e (List.mem_cons_self e rest)
    have hok_rest : ∀ x ∈ rest, entryOKB U x = true :=
      fun x hx => hok x (List.mem_cons_of_mem _ hx)
    cases e with
    | flag n v =>
      rw [flagNames_cons_flag, List.nodup_cons] at hnd
      rw [flagNames_cons_flag, List.mem_cons] at hmem
      by_cases hn : n = f
      · subst hn
        have hhit : containsSub (flagPat n) (renderEntry (.flag n v)) = true := by
          rw [hit_flag hfU hok_e, if_pos rfl]
        simp [replaceFirstE, hhit, setFlagTo1, setFlag_skip rest hnd.1]
      · have hhit : containsSub (flagPat f) (renderEntry (.flag n v)) = false := by
          rw [hit_flag hfU hok_e, if_neg hn]
        have hmem' : f ∈ flagNames rest := by
          rcases hmem with h | h
          · exact absurd h.symm hn
          · exact h
        simp [replaceFirstE, hhit, ih hok_rest hnd.2 hmem', setFlagTo1, hn]
    | neutral l =>
      rw [flagNames_cons_neutral] at hnd hmem
      have hhit := hit_nonflag hfU hok_e (e := .neutral l) rfl
      simp [replaceFirstE, hhit, ih hok_rest hnd hmem, setFlagTo1]
    | nameDecl s =>
      rw [flagNames_cons_name] at hnd hmem
      have hhit := hit_nonflag hfU hok_e (e := .nameDecl s) rfl
      simp [replaceFirstE, hhit, ih hok_rest hnd hmem, setFlagTo1]

/-- Enabling the empty flag set changes nothing. -/
theorem enableValsE_nil (e : Entry) : enableValsE [] e = e := by
  cases e <;> simp [enableValsE]

/-- Enabling the empty flag set changes nothing (map form). -/
theorem map_enableValsE_nil (es : List Entry) : es.map (enableValsE []) = es := by
  induction es with
  | nil => rfl
  | cons e rest ih => simp [enableValsE_nil, ih]

/-- Replacing `f`'s definition and then enabling `fs` is enabling `f :: fs`. -/
theorem ev_set (fs : List Line) (f : Line) (e : Entry) :
    enableValsE fs (setFlagTo1 f e) = enableValsE (f :: fs) e := by
  cases e with
  | flag n v =>
    by_cases h : n = f
    · subst h
      simp [setFlagTo1, enableValsE]
    · simp [setFlagTo1, enableValsE, h, List.mem_cons]
  | neutral l => rfl
  | nameDecl s => rfl

/-- An already-enabled definition is a fixed point of the enable map. -/
theorem ev_flag_one (fs : List Line) (f : Line) :
    enableValsE fs (.flag f '1') = .flag f '1' := by
  simp [enableValsE]

/-- Enabling `f :: fs` on a file not defining `f` is enabling `fs`. -/
theorem ev_cons_skip (fs : List Line) (f : Line) :
    ∀ es : List Entry, f ∉ flagNames es →
    es.map (enableValsE (f :: fs)) = es.map (enableValsE fs) := by
  intro es
  induction es with
  | nil => intro _; rfl
  | cons e rest ih =>
    intro hmem
    cases e with
    | flag n v =>
      rw [flagNames_cons_flag, List.mem_cons] at hmem
      push_neg at hmem
      have hn : n ≠ f := fun h => hmem.1 h.symm
      simp only [List.map_cons, ih hmem.2, enableValsE, List.mem_cons]
      congr 2
      simp [hn]
    | neutral l =>
      rw [flagNames_cons_neutral] at hmem
      simp [enableValsE, ih hmem]
    | nameDecl s =>
      rw [flagNames_cons_name] at hmem
      simp [enableValsE, ih hmem]

/-- Enabling `f :: fs` on a single definition of another flag is enabling `fs`. -/
theorem ev_cons_entry_skip (fs : List Line) (f n : Line) (v : Char) (hn : n ≠ f) :
    enableValsE (f :: fs) (.flag n v) = enableValsE fs (.flag n v) := by
  simp only [enableValsE, List.mem_cons]
  congr 1
  simp [hn]

/-- `setFlagTo1` preserves entry well-formedness when `f` itself is well-formed. -/
theorem entryOK_setFlag {U : List Line} {f : Line} {e : Entry}
    (hok : entryOKB U e = true) (hf : flagNameOKB f U = true) :
    entryOKB U (setFlagTo1 f e) = true := by
  cases e with
  | flag n v =>
    by_cases h : n = f
    · subst h
      simp [setFlagTo1, entryOKB, hf]
    · simpa [setFlagTo1, h] using hok
  | neutral l => exact hok
  | nameDecl s => exact hok

/-- `enableValsE` preserves entry well-formedness. -/
theorem entryOK_enableVals {U : List Line} {fs : List Line} {e : Entry}
    (hok : entryOKB U e = true) :
    entryOKB U (enableValsE fs e) = true := by
  cases e with
  | flag n v =>
    obtain ⟨hv, hn⟩ := entryOKB_flag_spec hok
    by_cases h : n ∈ fs <;> simp [enableValsE, h, entryOKB, hn]
    rcases hv with rfl | rfl <;> simp
  | neutral l => exact hok
  | nameDecl s => exact hok

/-- `disableEntry` preserves entry well-formedness (given a well-formed test name). -/
theorem entryOK_disable {U : List Line} {tn : Line} {e : Entry}
    (hok : entryOKB U e = true) (htn : nameLineOKB tn U = true) :
    entryOKB U (disableEntry tn e) = true := by
  cases e with
  | flag n v =>
    obtain ⟨_, hn⟩ := entryOKB_flag_spec hok
    simp [disableEntry, entryOKB, hn]
  | neutral l => exact hok
  | nameDecl s => simpa [disableEntry, entryOKB] using htn

/-- `missingFlags` only depends on the membership content of the name list. -/
theorem missingFlags_congr :
    ∀ (fs ns₁ ns₂ : List Line), (∀ x, x ∈ ns₁ ↔ x ∈ ns₂) →
    missingFlags fs ns₁ = missingFlags fs ns₂ := by
  intro fs
  induction fs with
  | nil => intro _ _ _; rfl
  | cons f fs ih =>
    intro ns₁ ns₂ h
    by_cases hf : f ∈ ns₁
    · rw [missingFlags, if_pos hf, missingFlags, if_pos ((h f).mp hf)]
      exact ih _ _ h
    · rw [missingFlags, if_neg hf, missingFlags, if_neg (fun hc => hf ((h f).mpr hc))]
      rw [ih (f :: ns₁) (f :: ns₂) (by intro x; simp [List.mem_cons, h x])]

/-- Missing flags come from the group. -/
theorem missingFlags_subset :
    ∀ (fs ns : List Line) (x : Line), x ∈ missingFlags fs ns → x ∈ fs := by
  intro fs
  induction fs with
  | nil => intro ns x h; simp [missingFlags] at h
  | cons f fs ih =>
    intro ns x h
    rw [missingFlags] at h
    split at h
    · exact List.mem_cons_of_mem _ (ih ns x h)
    · rcases List.mem_cons.mp h with rfl | h'
      · exact List.mem_cons_self x fs
      · exact List.mem_cons_of_mem _ (ih (f :: ns) x h')

/-- Missing flags were indeed missing. -/
theorem missingFlags_not_mem :
    ∀ (fs ns : List Line) (x : Line), x ∈ missingFlags fs ns → x ∉ ns := by
  intro fs
  induction fs with
  | nil => intro ns x h; simp [missingFlags] at h
  | cons f fs ih =>
    intro ns x h
    rw [missingFlags] at h
    split at h
    · exact ih ns x h
    · rcases List.mem_cons.mp h with rfl | h'
      · assumption
      · intro hc
        exact ih (f :: ns) x h' (List.mem_cons_of_mem _ hc)

/-- A group flag missing from the names is collected. -/
theorem missingFlags_mem :
    ∀ (fs ns : List Line) (f : Line), f ∈ fs → f ∉ ns → f ∈ missingFlags fs ns := by
  intro fs
  induction fs with
  | nil => intro ns f h _; simp at h
  | cons g fs ih =>
    intro ns f hf hns
    rw [missingFlags]
    rcases List.mem_cons.mp hf with rfl | hf'
    · rw [if_neg hns]
      exact List.mem_cons_self f _
    · by_cases hg : g ∈ ns
      · rw [if_pos hg]
        exact ih ns f hf' hns
      · rw [if_neg hg]
        by_cases hfg : f = g
        · subst hfg
          exact List.mem_cons_self f _
        · exact List.mem_cons_of_mem _
            (ih (g :: ns) f hf' (by simp [List.mem_cons, hfg, hns]))

/-- The collected missing flags are pairwise distinct. -/
theorem missingFlags_nodup :
    ∀ (fs ns : List Line), (missingFlags fs ns).Nodup := by
  intro fs
  induction fs with
  | nil => intro ns; simp [missingFlags]
  | cons f fs ih =>
    intro ns
    rw [missingFlags]
    split
    · exact ih ns
    · rw [List.nodup_cons]
      exact ⟨fun hc => missingFlags_not_mem fs (f :: ns) f hc (List.mem_cons_self f ns),
             ih (f :: ns)⟩

/-- When every group flag is already defined nothing is missing. -/
theorem missingFlags_nil_of_subset :
    ∀ (fs ns : List Line), (∀ f ∈ fs, f ∈ ns) → missingFlags fs ns = [] := by
  intro fs
  induction fs with
  | nil => intro _ _; rfl
  | cons f fs ih =>
    intro ns h
    rw [missingFlags, if_pos (h f (List.mem_cons_self f fs))]
    exact ih ns (fun g hg => h g (List.mem_cons_of_mem _ hg))

/-- One step of the enable loop. -/
theorem enablePass_cons (f : Line) (fs : List Line) (p : Nat) (ls : List Line) :
    enablePass (f :: fs) p ls = enablePass fs p (enableOne f p ls) := rfl

/-- The enable loop on a rendered disabled file, anchored at the first flag definition:
existing definitions of group flags are rewritten in place, missing ones are inserted
right after the anchor in reverse first-occurrence order, and everything else is kept. -/
theorem enablePass_model (U : List Line) (A : List Entry) :
    ∀ (fs : List Line) (n₀ : Line) (v₀ : Char) (rtail : List Entry),
    (∀ f ∈ fs, f ∈ U ∧ flagNameOKB f U = true) →
    entryOKB U (.flag n₀ v₀) = true →
    (∀ e ∈ rtail, entryOKB U e = true) →
    (flagNames (.flag n₀ v₀ :: rtail)).Nodup →
    enablePass fs A.length (render (A ++ .flag n₀ v₀ :: rtail)) =
      render (A ++ enableValsE fs (.flag n₀ v₀) ::
        ((missingFlags fs (flagNames (.flag n₀ v₀ :: rtail))).reverse.map
          (fun f => Entry.flag f '1') ++ rtail.map (enableValsE fs))) := by
  intro fs
  induction fs with
  | nil =>
    intro n₀ v₀ rtail _ _ _ _
    simp [enablePass, enableValsE_nil, map_enableValsE_nil, missingFlags]
  | cons f fs ih =>
    intro n₀ v₀ rtail hfs hok0 hokt hnd
    have hfU : f ∈ U := (hfs f (List.mem_cons_self f fs)).1
    have hfOK : flagNameOKB f U = true := (hfs f (List.mem_cons_self f fs)).2
    have hfs' : ∀ g ∈ fs, g ∈ U ∧ flagNameOKB g U = true :=
      fun g hg => hfs g (List.mem_cons_of_mem _ hg)
    have hokcons : ∀ e ∈ (.flag n₀ v₀ :: rtail : List Entry), entryOKB U e = true := by
      intro e he
      rcases List.mem_cons.mp he with rfl | he'
      · exact hok0
      · exact hokt e he'
    have hlenA : (render A).length = A.length := by simp [render]
    have hsplit : render (A ++ .flag n₀ v₀ :: rtail) =
        render A ++ render (.flag n₀ v₀ :: rtail) := by simp [render]
    have hrepl : replaceFrom (flagPat f) (enabledLineOf f) A.length
        (render (A ++ .flag n₀ v₀ :: rtail)) =
        ((replaceFirstE f (.flag n₀ v₀ :: rtail)).map render).map ((render A) ++ ·) := by
      rw [hsplit, ← hlenA, replaceFrom_skip, replaceFrom0_entries]
    rw [enablePass_cons]
    by_cases hmem : f ∈ flagNames (.flag n₀ v₀ :: rtail)
    · have hfound := replaceFirstE_found hfU _ hokcons hnd hmem
      have hmapped : (Entry.flag n₀ v₀ :: rtail).map (setFlagTo1 f) =
          setFlagTo1 f (.flag n₀ v₀) :: rtail.map (setFlagTo1 f) := rfl
      have henable : enableOne f A.length (render (A ++ .flag n₀ v₀ :: rtail)) =
          render (A ++ setFlagTo1 f (.flag n₀ v₀) :: rtail.map (setFlagTo1 f)) := by
        unfold enableOne
        rw [hrepl, hfound]
        simp [render, hmapped]
      have hsf : setFlagTo1 f (.flag n₀ v₀) = .flag n₀ (if n₀ = f then '1' else v₀) := by
        by_cases h : n₀ = f
        · subst h; simp [setFlagTo1]
        · simp [setFlagTo1, h]
      have hok0' : entryOKB U (.flag n₀ (if n₀ = f then '1' else v₀)) = true := by
        rw [← hsf]
        exact entryOK_setFlag hok0 hfOK
      have hokt' : ∀ e ∈ rtail.map (setFlagTo1 f), entryOKB U e = true := by
        intro e he
        obtain ⟨x, hx, rfl⟩ := List.mem_map.mp he
        exact entryOK_setFlag (hokt x hx) hfOK
      have hnames' : flagNames
          (Entry.flag n₀ (if n₀ = f then '1' else v₀) :: rtail.map (setFlagTo1 f)) =
          flagNames (.flag n₀ v₀ :: rtail) := by
        rw [flagNames_cons_flag, flagNames_cons_flag, flagNames_map_setFlag]
      have hnd' : (flagNames
          (Entry.flag n₀ (if n₀ = f then '1' else v₀) :: rtail.map (setFlagTo1 f))).Nodup := by
        rw [hnames']; exact hnd
      rw [henable, hsf, ih n₀ _ _ hfs' hok0' hokt' hnd', hnames']
      have hev : enableValsE fs (.flag n₀ (if n₀ = f then '1' else v₀)) =
          enableValsE (f :: fs) (.flag n₀ v₀) := by
        rw [← hsf, ev_set]
      have hmiss : missingFlags (f :: fs) (flagNames (.flag n₀ v₀ :: rtail)) =
          missingFlags fs (flagNames (.flag n₀ v₀ :: rtail)) := by
        rw [missingFlags, if_pos hmem]
      have hmap : (rtail.map (setFlagTo1 f)).map (enableValsE fs) =
          rtail.map (enableValsE (f :: fs)) := by
        rw [List.map_map]
        exact List.map_congr_left (fun e _ => ev_set fs f e)
      rw [hev, hmiss, hmap]
    · have hnone := replaceFirstE_none hfU _ hokcons hmem
      have henable : enableOne f A.length (render (A ++ .flag n₀ v₀ :: rtail)) =
          render (A ++ .flag n₀ v₀ :: .flag f '1' :: rtail) := by
        unfold enableOne
        rw [hrepl, hnone]
        exact insertAt_render A (.flag n₀ v₀) (.flag f '1') rtail
      rw [flagNames_cons_flag, List.mem_cons] at hmem
      push_neg at hmem
      obtain ⟨hfn, hftail⟩ := hmem
      have hn₀f : n₀ ≠ f := fun h => hfn h.symm
      have hokt' : ∀ e ∈ (Entry.flag f '1' :: rtail), entryOKB U e = true := by
        intro e he
        rcases List.mem_cons.mp he with rfl | he'
        · simp [entryOKB, hfOK]
        · exact hokt e he'
      have hnd₀ := hnd
      rw [flagNames_cons_flag, List.nodup_cons] at hnd₀
      have hnd' : (flagNames (.flag n₀ v₀ :: .flag f '1' :: rtail)).Nodup := by
        rw [flagNames_cons_flag, flagNames_cons_flag, List.nodup_cons, List.nodup_cons]
        refine ⟨?_, hftail, hnd₀.2⟩
        rw [List.mem_cons]
        push_neg
        exact ⟨hn₀f, hnd₀.1⟩
      rw [henable, ih n₀ v₀ (.flag f '1' :: rtail) hfs' hok0 hokt' hnd']
      have hev : enableValsE fs (.flag n₀ v₀) = enableValsE (f :: fs) (.flag n₀ v₀) :=
        (ev_cons_entry_skip fs f n₀ v₀ hn₀f).symm
      have hnames₁ : flagNames (.flag n₀ v₀ :: .flag f '1' :: rtail) =
          n₀ :: f :: flagNames rtail := by
        rw [flagNames_cons_flag, flagNames_cons_flag]
      have hmiss : missingFlags fs (n₀ :: f :: flagNames rtail) =
          missingFlags fs (f :: n₀ :: flagNames rtail) := by
        apply missingFlags_congr
        intro x
        simp [List.mem_cons]
        tauto
      have hmiss₂ : missingFlags (f :: fs) (flagNames (.flag n₀ v₀ :: rtail)) =
          f :: missingFlags fs (f :: n₀ :: flagNames rtail) := by
        rw [flagNames_cons_flag]
        rw [missingFlags, if_neg (by rw [List.mem_cons]; push_neg; exact ⟨hfn, hftail⟩)]
      have hmapf : (Entry.flag f '1' :: rtail).map (enableValsE fs) =
          Entry.flag f '1' :: rtail.map (enableValsE fs) := by
        rw [List.map_cons, ev_flag_one]
      have hmapr : rtail.map (enableValsE (f :: fs)) = rtail.map (enableValsE fs) :=
        ev_cons_skip fs f rtail hftail
      rw [hnames₁, hmiss, hev, hmiss₂, hmapf, hmapr]
      rw [List.reverse_cons, List.map_append]
      simp [render]

/-- A flag-free segment contributes no flag names. -/
theorem flagNames_nil_of_noflag :
    ∀ A : List Entry, (∀ e ∈ A, isFlagE e = false) → flagNames A = [] := by
  intro A
  induction A with
  | nil => intro _; rfl
  | cons e rest ih =>
    intro h
    have he := h e (List.mem_cons_self e rest)
    have hr := ih fun x hx => h x (List.mem_cons_of_mem _ hx)
    cases e with
    | flag n v => simp [isFlagE] at he
    | neutral l => rw [flagNames_cons_neutral, hr]
    | nameDecl s => rw [flagNames_cons_name, hr]

/-- The enable map fixes non-flag entries. -/
theorem ev_nonflag (fs : List Line) {e : Entry} (h : isFlagE e = false) :
    enableValsE fs e = e := by
  cases e with
  | flag n v => simp [isFlagE] at h
  | neutral l => rfl
  | nameDecl s => rfl

/-- The enable map fixes flag-free segments. -/
theorem map_ev_noflag (fs : List Line) :
    ∀ A : List Entry, (∀ e ∈ A, isFlagE e = false) → A.map (enableValsE fs) = A := by
  intro A
  induction A with
  | nil => intro _; rfl
  | cons e rest ih =>
    intro h
    rw [List.map_cons, ev_nonflag fs (h e (List.mem_cons_self e rest)),
      ih fun x hx => h x (List.mem_cons_of_mem _ hx)]

/-- A first-flag index yields a decomposition into a flag-free prefix and the anchor
flag definition. -/
theorem firstFlagIdx_decomp :
    ∀ (es : List Entry) (p : Nat), firstFlagIdx es = some p →
    ∃ A n₀ v₀ rtail, es = A ++ .flag n₀ v₀ :: rtail ∧ A.length = p ∧
      ∀ e ∈ A, isFlagE e = false := by
  intro es
  induction es with
  | nil => intro p h; simp [firstFlagIdx] at h
  | cons e rest ih =>
    intro p h
    cases e with
    | flag n v =>
      refine ⟨[], n, v, rest, rfl, ?_, by simp⟩
      simp only [firstFlagIdx, Option.some.injEq] at h
      simpa using h
    | neutral l =>
      simp only [firstFlagIdx] at h
      rcases hq : firstFlagIdx rest with _ | q
      · rw [hq] at h; simp at h
      · rw [hq] at h
        simp at h
        obtain ⟨A, n₀, v₀, rtail, hdec, hlen, hnf⟩ := ih q hq
        refine ⟨.neutral l :: A, n₀, v₀, rtail, by rw [hdec]; rfl,
          by simp only [List.length_cons]; omega, ?_⟩
        intro x hx
        rcases List.mem_cons.mp hx with rfl | hx'
        · rfl
        · exact hnf x hx'
    | nameDecl s =>
      simp only [firstFlagIdx] at h
      rcases hq : firstFlagIdx rest with _ | q
      · rw [hq] at h; simp at h
      · rw [hq] at h
        simp at h
        obtain ⟨A, n₀, v₀, rtail, hdec, hlen, hnf⟩ := ih q hq
        refine ⟨.nameDecl s :: A, n₀, v₀, rtail, by rw [hdec]; rfl,
          by simp only [List.length_cons]; omega, ?_⟩
        intro x hx
        rcases List.mem_cons.mp hx with rfl | hx'
        · rfl
        · exact hnf x hx'

/-- The first-flag index of a flag-free prefix followed by a flag definition. -/
theorem firstFlagIdx_append :
    ∀ (A : List Entry), (∀ e ∈ A, isFlagE e = false) →
    ∀ (n : Line) (v : Char) (r : List Entry),
    firstFlagIdx (A ++ .flag n v :: r) = some A.length := by
  intro A
  induction A with
  | nil => intro _ n v r; rfl
  | cons e rest ih =>
    intro h n v r
    have he := h e (List.mem_cons_self e rest)
    have hr := ih (fun x hx => h x (List.mem_cons_of_mem _ hx)) n v r
    cases e with
    | flag m w => simp [isFlagE] at he
    | neutral l =>
      simp only [List.cons_append, firstFlagIdx, List.append_eq, hr, List.length_cons]
      rfl
    | nameDecl s =>
      simp only [List.cons_append, firstFlagIdx, List.append_eq, hr, List.length_cons]
      rfl

/-- The structural form of `patchModel` at a decomposed disabled file. -/
theorem patchModel_decomp (es : List Entry) (flags : List Line) (tn : Line)
    (A rtail : List Entry) (n₀ : Line) (v₀ : Char)
    (hds : es.map (disableEntry tn) = A ++ .flag n₀ v₀ :: rtail)
    (hAnf : ∀ e ∈ A, isFlagE e = false) :
    patchModel es flags tn =
      A ++ enableValsE flags (.flag n₀ v₀) ::
        ((missingFlags flags (flagNames (.flag n₀ v₀ :: rtail))).reverse.map
          (fun f => Entry.flag f '1') ++ rtail.map (enableValsE flags)) := by
  have hidx : firstFlagIdx (es.map (disableEntry tn)) = some A.length := by
    rw [hds]
    exact firstFlagIdx_append A hAnf n₀ v₀ rtail
  have hnames : flagNames (es.map (disableEntry tn)) =
      flagNames (.flag n₀ v₀ :: rtail) := by
    rw [hds, flagNames_append, flagNames_nil_of_noflag A hAnf, List.nil_append]
  have htake : (es.map (disableEntry tn)).take (A.length + 1) = A ++ [.flag n₀ v₀] := by
    rw [hds, List.take_append 1]
    rfl
  have hdrop : (es.map (disableEntry tn)).drop (A.length + 1) = rtail := by
    rw [hds, List.drop_append 1]
    rfl
  simp only [patchModel, hidx]
  simp only [htake, hdrop, hnames, List.map_append, map_ev_noflag flags A hAnf,
    List.map_cons, List.map_nil]
  simp [List.append_assoc]

/-- `UpdateTestFile` on a rendered well-formed file with an anchor computes exactly the
rendered `patchModel`. -/
theorem updateTestFile_model {es : List Entry} {flags : List Line} {tn : Line} {p : Nat}
    (hwf : WFcheck es flags tn = true) (hidx : firstFlagIdx es = some p) :
    UpdateTestFile (render es) flags tn = some (render (patchModel es flags tn)) := by
  obtain ⟨hok, hflags, htn, hnodup, hone⟩ := WFcheck_spec hwf
  have hp1 := pass1_model tn (flags ++ flagNames es) es false hok hone (by simp)
  have hidxd : firstFlagIdx (es.map (disableEntry tn)) = some p := by
    rw [firstFlagIdx_map_disable, hidx]
  obtain ⟨A, n₀, v₀, rtail, hds, hlen, hAnf⟩ := firstFlagIdx_decomp _ p hidxd
  have hokds : ∀ e ∈ es.map (disableEntry tn),
      entryOKB (flags ++ flagNames es) e = true := by
    intro e he
    obtain ⟨x, hx, rfl⟩ := List.mem_map.mp he
    exact entryOK_disable (hok x hx) htn
  have hok0 : entryOKB (flags ++ flagNames es) (.flag n₀ v₀) = true := by
    apply hokds
    rw [hds]
    exact List.mem_append_right A (List.mem_cons_self _ _)
  have hokt : ∀ e ∈ rtail, entryOKB (flags ++ flagNames es) e = true := by
    intro e he
    apply hokds
    rw [hds]
    exact List.mem_append_right A (List.mem_cons_of_mem _ he)
  have hndt : (flagNames (.flag n₀ v₀ :: rtail)).Nodup := by
    have : flagNames (es.map (disableEntry tn)) = flagNames (.flag n₀ v₀ :: rtail) := by
      rw [hds, flagNames_append, flagNames_nil_of_noflag A hAnf, List.nil_append]
    rw [← this, flagNames_map_disable]
    exact hnodup
  have hfs : ∀ f ∈ flags, f ∈ (flags ++ flagNames es) ∧
      flagNameOKB f (flags ++ flagNames es) = true :=
    fun f hf => ⟨List.mem_append_left _ hf, hflags f hf⟩
  have hen := enablePass_model (flags ++ flagNames es) A flags n₀ v₀ rtail hfs hok0 hokt hndt
  simp only [UpdateTestFile]
  rw [hp1.1, hp1.2, hidx]
  dsimp only
  rw [hds, ← hlen, hen]
  rw [patchModel_decomp es flags tn A rtail n₀ v₀ hds hAnf]

/-- Every flag definition of the disabled file carries the value `0`. -/
theorem disable_flag_val {tn : Line} {es : List Entry} {n : Line} {v : Char}
    (h : Entry.flag n v ∈ es.map (disableEntry tn)) : v = '0' := by
  obtain ⟨x, hx, he⟩ := List.mem_map.mp h
  cases x with
  | flag m w =>
    simp only [disableEntry, Entry.flag.injEq] at he
    exact he.2.symm
  | neutral l => simp [disableEntry] at he
  | nameDecl s => simp [disableEntry] at he

/-- Counterexample to claim C1: a configuration file defining `FOO` twice.  The patcher
recognizes both lines (it rewrites both to disabled during the first scan), but the
enable loop rewrites only the first match: the second recognized definition of `FOO`
ends with value `0` even though `FOO` is in the group's flag set. -/
theorem c1_counterexample :
    UpdateTestFile cfgDup [fooN] (("G").data) =
      some [mkFlagLine fooN '1', mkFlagLine fooN '0'] ∧
    searchTestEnabled (mkFlagLine fooN '0') = some (flagPat fooN) ∧
    fooN ∈ [fooN] ∧ ('0' : Char) ≠ '1' :=
  ⟨rfl, rfl, List.mem_cons_self fooN [], by decide⟩

/-- Claim C1, amended: for every *well-formed* configuration file (unambiguous flag
names, no flag defined on two lines, at most one name marker — `WFcheck`) in which the
patcher finds an anchor, `UpdateTestFile` produces exactly the rendered patched model:
every flag definition in the result is enabled iff its name is in the group's flag set
(whatever its value before the call), and every group flag ends up with an enabled
definition. -/
theorem c1_amended_patch_sets_exactly_group_flags
    (es : List Entry) (flags : List Line) (tn : Line) (p : Nat)
    (hwf : WFcheck es flags tn = true) (hidx : firstFlagIdx es = some p) :
    UpdateTestFile (render es) flags tn = some (render (patchModel es flags tn)) ∧
    (∀ n v, Entry.flag n v ∈ patchModel es flags tn →
      (v = '0' ∨ v = '1') ∧ (v = '1' ↔ n ∈ flags)) ∧
    (∀ f ∈ flags, Entry.flag f '1' ∈ patchModel es flags tn) := by
  have hidxd : firstFlagIdx (es.map (disableEntry tn)) = some p := by
    rw [firstFlagIdx_map_disable, hidx]
  obtain ⟨A, n₀, v₀, rtail, hds, hlen, hAnf⟩ := firstFlagIdx_decomp _ p hidxd
  have hpm := patchModel_decomp es flags tn A rtail n₀ v₀ hds hAnf
  have hv₀ : v₀ = '0' := disable_flag_val
    (by rw [hds]; exact List.mem_append_right A (List.mem_cons_self _ _))
  subst hv₀
  have hrt_val : ∀ m w, Entry.flag m w ∈ rtail → w = '0' := by
    intro m w hmw
    exact disable_flag_val
      (by rw [hds]; exact List.mem_append_right A (List.mem_cons_of_mem _ hmw))
  refine ⟨updateTestFile_model hwf hidx, ?_, ?_⟩
  · intro n v hmem
    rw [hpm] at hmem
    rcases List.mem_append.mp hmem with hA | hcons
    · have := hAnf _ hA
      simp [isFlagE] at this
    · rcases List.mem_cons.mp hcons with heq | hrest
      · have heq' : Entry.flag n v = Entry.flag n₀ (if n₀ ∈ flags then '1' else '0') := by
          simpa [enableValsE] using heq
        injection heq' with h1 h2
        rw [h2, h1]
        by_cases hf : n₀ ∈ flags <;> simp [hf]
      · rcases List.mem_append.mp hrest with hM | hT
        · obtain ⟨g, hg, he⟩ := List.mem_map.mp hM
          have hgf : g ∈ flags := missingFlags_subset _ _ _ (List.mem_reverse.mp hg)
          have he' : Entry.flag n v = Entry.flag g '1' := he.symm
          injection he' with h1 h2
          rw [h2, h1]
          simp [hgf]
        · obtain ⟨x, hx, he⟩ := List.mem_map.mp hT
          cases x with
          | flag m w =>
            have hw : w = '0' := hrt_val m w hx
            subst hw
            have he' : Entry.flag n v = Entry.flag m (if m ∈ flags then '1' else '0') := by
              simpa [enableValsE] using he.symm
            injection he' with h1 h2
            rw [h2, h1]
            by_cases hf : m ∈ flags <;> simp [hf]
          | neutral l => simp [enableValsE] at he
          | nameDecl s => simp [enableValsE] at he
  · intro f hf
    rw [hpm]
    by_cases hmem : f ∈ flagNames (Entry.flag n₀ '0' :: rtail)
    · rw [flagNames_cons_flag, List.mem_cons] at hmem
      rcases hmem with rfl | hmem'
      · refine List.mem_append.mpr (Or.inr ?_)
        rw [show enableValsE flags (Entry.flag f '0') = Entry.flag f '1' by
          simp [enableValsE, hf]]
        exact List.mem_cons_self _ _
      · obtain ⟨w, hw⟩ := mem_flagNames.mp hmem'
        have hw0 : w = '0' := hrt_val f w hw
        subst hw0
        refine List.mem_append.mpr (Or.inr (List.mem_cons.mpr (Or.inr ?_)))
        refine List.mem_append.mpr (Or.inr ?_)
        refine List.mem_map.mpr ⟨Entry.flag f '0', hw, ?_⟩
        simp [enableValsE, hf]
    · have hM := missingFlags_mem flags _ f hf hmem
      refine List.mem_append.mpr (Or.inr (List.mem_cons.mpr (Or.inr ?_)))
      refine List.mem_append.mpr (Or.inl ?_)
      exact List.mem_map.mpr ⟨f, List.mem_reverse.mpr hM, rfl⟩

/-- Disabling is idempotent on entries. -/
theorem disable_idem (tn : Line) (e : Entry) :
    disableEntry tn (disableEntry tn e) = disableEntry tn e := by
  cases e <;> rfl

/-- Disabling after enabling a disabled entry is disabling. -/
theorem dis_ev_dis (tn : Line) (fs : List Line) (e : Entry) :
    disableEntry tn (enableValsE fs (disableEntry tn e)) = disableEntry tn e := by
  cases e <;> simp [disableEntry, enableValsE]

/-- Already-disabled entries are fixed points of disabling. -/
theorem disable_fix_of_mem {tn : Line} {es : List Entry} {x : Entry}
    (h : x ∈ es.map (disableEntry tn)) : disableEntry tn x = x := by
  obtain ⟨y, _, rfl⟩ := List.mem_map.mp h
  exact disable_idem tn y

/-- `nameCount` distributes over append. -/
theorem nameCount_append (a b : List Entry) :
    nameCount (a ++ b) = nameCount a + nameCount b := by
  simp [nameCount, List.filter_append]

/-- The enable map keeps the name-marker count. -/
theorem nameCount_map_ev (fs : List Line) (es : List Entry) :
    nameCount (es.map (enableValsE fs)) = nameCount es := by
  induction es with
  | nil => rfl
  | cons e rest ih =>
    cases e with
    | flag n v =>
      rw [List.map_cons]
      rw [show enableValsE fs (.flag n v) = .flag n (if n ∈ fs then '1' else v) from rfl]
      rw [nameCount_cons_flag, nameCount_cons_flag, ih]
    | neutral l => rw [List.map_cons, show enableValsE fs (.neutral l) = .neutral l from rfl,
        nameCount_cons_neutral, nameCount_cons_neutral, ih]
    | nameDecl s => rw [List.map_cons, show enableValsE fs (.nameDecl s) = .nameDecl s from rfl,
        nameCount_cons_name, nameCount_cons_name, ih]

/-- Lists of bare flag definitions carry no name markers. -/
theorem nameCount_mapFlag (v : Char) (ms : List Line) :
    nameCount (ms.map fun f => Entry.flag f v) = 0 := by
  induction ms with
  | nil => rfl
  | cons m rest ih => rw [List.map_cons, nameCount_cons_flag, ih]

/-- The names of a list of bare flag definitions. -/
theorem flagNames_mapFlag (v : Char) (ms : List Line) :
    flagNames (ms.map fun f => Entry.flag f v) = ms := by
  induction ms with
  | nil => rfl
  | cons m rest ih => rw [List.map_cons, flagNames_cons_flag, ih]

/-- `flagNameOKB` only constrains the universe by a bounded quantifier, so it is
antitone in the universe. -/
theorem flagNameOKB_mono {n : Line} {U V : List Line} (h : flagNameOKB n U = true)
    (hsub : ∀ x ∈ V, x ∈ U) : flagNameOKB n V = true := by
  simp only [flagNameOKB, Bool.and_eq_true, List.all_eq_true] at h ⊢
  exact ⟨h.1, fun f hf => h.2 f (hsub f hf)⟩

/-- `neutralOKB` is antitone in the universe. -/
theorem neutralOKB_mono {l : Line} {U V : List Line} (h : neutralOKB l U = true)
    (hsub : ∀ x ∈ V, x ∈ U) : neutralOKB l V = true := by
  simp only [neutralOKB, Bool.and_eq_true, List.all_eq_true] at h ⊢
  exact ⟨h.1, fun f hf => h.2 f (hsub f hf)⟩

/-- `nameLineOKB` is antitone in the universe. -/
theorem nameLineOKB_mono {s : Line} {U V : List Line} (h : nameLineOKB s U = true)
    (hsub : ∀ x ∈ V, x ∈ U) : nameLineOKB s V = true := by
  simp only [nameLineOKB, Bool.and_eq_true, List.all_eq_true] at h ⊢
  exact ⟨h.1, fun f hf => h.2 f (hsub f hf)⟩

/-- `entryOKB` is antitone in the universe. -/
theorem entryOKB_mono {e : Entry} {U V : List Line} (h : entryOKB U e = true)
    (hsub : ∀ x ∈ V, x ∈ U) : entryOKB V e = true := by
  cases e with
  | neutral l => exact neutralOKB_mono h hsub
  | nameDecl s => exact nameLineOKB_mono h hsub
  | flag n v =>
    simp only [entryOKB, Bool.and_eq_true] at h ⊢
    exact ⟨h.1, flagNameOKB_mono h.2 hsub⟩

/-- On a well-formed rendered file, the patcher's own recognizer sees exactly the flag
definitions, in order. -/
theorem render_filterMap_ok {U : List Line} :
    ∀ es : List Entry, (∀ e ∈ es, entryOKB U e = true) →
    (render es).filterMap searchTestEnabled = (flagNames es).map flagPat := by
  intro es
  induction es with
  | nil => intro _; rfl
  | cons e rest ih =>
    intro hok
    have hok_e := hok e (List.mem_cons_self e rest)
    have hok_rest : ∀ x ∈ rest, entryOKB U x = true :=
      fun x hx => hok x (List.mem_cons_of_mem _ hx)
    rw [render_cons]
    cases e with
    | neutral l =>
      have hse := (neutralOKB_spec (by simpa [entryOKB] using hok_e)).1
      rw [flagNames_cons_neutral, ← ih hok_rest]
      simp [renderEntry, List.filterMap_cons, hse]
    | nameDecl s =>
      have hse := (nameLineOKB_spec (by simpa [entryOKB] using hok_e)).2.1
      rw [flagNames_cons_name, ← ih hok_rest]
      simp [renderEntry, List.filterMap_cons, hse]
    | flag n v =>
      obtain ⟨hv, hok_n⟩ := entryOKB_flag_spec hok_e
      have hse := (flagNameOKB_spec hok_n).1 v hv
      rw [flagNames_cons_flag]
      simp [renderEntry, List.filterMap_cons, hse, ih hok_rest]

/-- The per-flag search pattern is injective in the flag name. -/
theorem flagPat_injective : Function.Injective flagPat := by
  intro a b h
  unfold flagPat at h
  have h1 := List.append_cancel_right h
  exact List.append_cancel_left h1

/-- Witness for C1 (amended), at spec §8's scenario 1: a file with a disabled `MUTEX`
and an `SEMAPHORE` left enabled by a previous group; the group enables `MUTEX` and
`QUEUE`.  After the patch `MUTEX` and the freshly inserted `QUEUE` are enabled and
`SEMAPHORE` is back to disabled. -/
theorem c1_amended_witness :
    WFcheck esW flagsW tnW = true ∧
    firstFlagIdx esW = some 2 ∧
    UpdateTestFile (render esW) flagsW tnW = some (render (patchModel esW flagsW tnW)) ∧
    (∀ f ∈ flagsW, Entry.flag f '1' ∈ patchModel esW flagsW tnW) ∧
    Entry.flag (("SEMAPHORE").data) '0' ∈ patchModel esW flagsW tnW :=
  ⟨rfl, rfl,
   (c1_amended_patch_sets_exactly_group_flags esW flagsW tnW 2 rfl rfl).1,
   (c1_amended_patch_sets_exactly_group_flags esW flagsW tnW 2 rfl rfl).2.2,
   by decide⟩

/-- Counterexample to claim C4: a configuration file defining `FOO` twice, patched for
the group `[FOO]`.  Applying the patch twice yields the same file as applying it once
(so the enabled-flag state agrees), but that file still contains two flag-definition
lines recognized as defining `FOO` — the "no duplicate flag-definition lines" part of
the claim fails. -/
theorem c4_counterexample :
    UpdateTestFile cfgDup [fooN] (("G").data) =
      some [mkFlagLine fooN '1', mkFlagLine fooN '0'] ∧
    UpdateTestFile [mkFlagLine fooN '1', mkFlagLine fooN '0'] [fooN] (("G").data) =
      some [mkFlagLine fooN '1', mkFlagLine fooN '0'] ∧
    ¬ (([mkFlagLine fooN '1', mkFlagLine fooN '0'] : List Line).filterMap
        searchTestEnabled).Nodup :=
  ⟨rfl, rfl, by decide⟩

/-- Claim C4, amended: on a *well-formed* configuration file with an anchor (`WFcheck`:
unambiguous flag names, no flag defined twice, at most one name marker), the patch is
idempotent — applying `UpdateTestFile` to its own output with the same group reproduces
that output byte for byte — and the output has no two flag-definition lines recognized
as defining the same flag. -/
theorem c4_amended_patch_idempotent
    (es : List Entry) (flags : List Line) (tn : Line) (p : Nat)
    (hwf : WFcheck es flags tn = true) (hidx : firstFlagIdx es = some p) :
    UpdateTestFile (render es) flags tn = some (render (patchModel es flags tn)) ∧
    UpdateTestFile (render (patchModel es flags tn)) flags tn =
      some (render (patchModel es flags tn)) ∧
    ((render (patchModel es flags tn)).filterMap searchTestEnabled).Nodup := by
  obtain ⟨hok, hflags, htn, hnodup, hone⟩ := WFcheck_spec hwf
  have hidxd : firstFlagIdx (es.map (disableEntry tn)) = some p := by
    rw [firstFlagIdx_map_disable, hidx]
  obtain ⟨A, n₀, v₀, rtail, hds, hlen, hAnf⟩ := firstFlagIdx_decomp _ p hidxd
  have hv₀ : v₀ = '0' := disable_flag_val
    (by rw [hds]; exact List.mem_append_right A (List.mem_cons_self _ _))
  subst hv₀
  have hpm := patchModel_decomp es flags tn A rtail n₀ '0' hds hAnf
  have hns_es : flagNames es = flagNames (Entry.flag n₀ '0' :: rtail) := by
    rw [← flagNames_map_disable tn es, hds, flagNames_append,
      flagNames_nil_of_noflag A hAnf, List.nil_append]
  have hndt : (flagNames (Entry.flag n₀ '0' :: rtail)).Nodup := hns_es ▸ hnodup
  have hokds : ∀ e ∈ es.map (disableEntry tn),
      entryOKB (flags ++ flagNames es) e = true := by
    intro e he
    obtain ⟨x, hx, rfl⟩ := List.mem_map.mp he
    exact entryOK_disable (hok x hx) htn
  have hokA : ∀ e ∈ A, entryOKB (flags ++ flagNames es) e = true := by
    intro e he
    exact hokds e (by rw [hds]; exact List.mem_append_left _ he)
  have hok0 : entryOKB (flags ++ flagNames es) (.flag n₀ '0') = true :=
    hokds _ (by rw [hds]; exact List.mem_append_right A (List.mem_cons_self _ _))
  have hokt : ∀ e ∈ rtail, entryOKB (flags ++ flagNames es) e = true := by
    intro e he
    exact hokds e (by rw [hds]; exact List.mem_append_right A (List.mem_cons_of_mem _ he))
  have hokPM : ∀ e ∈ patchModel es flags tn,
      entryOKB (flags ++ flagNames es) e = true := by
    intro e he
    rw [hpm] at he
    rcases List.mem_append.mp he with hA | hcons
    · exact hokA e hA
    · rcases List.mem_cons.mp hcons with rfl | hrest
      · exact entryOK_enableVals hok0
      · rcases List.mem_append.mp hrest with hM | hT
        · obtain ⟨g, hg, rfl⟩ := List.mem_map.mp hM
          have hgf : g ∈ flags := missingFlags_subset _ _ _ (List.mem_reverse.mp hg)
          simp [entryOKB, hflags g hgf]
        · obtain ⟨x, hx, rfl⟩ := List.mem_map.mp hT
          exact entryOK_enableVals (hokt x hx)
  have hevred : enableValsE flags (Entry.flag n₀ '0') =
      Entry.flag n₀ (if n₀ ∈ flags then '1' else '0') := rfl
  have hnamesPM : flagNames (patchModel es flags tn) =
      n₀ :: ((missingFlags flags (flagNames (Entry.flag n₀ '0' :: rtail))).reverse ++
        flagNames rtail) := by
    rw [hpm, flagNames_append, flagNames_nil_of_noflag A hAnf, List.nil_append, hevred,
      flagNames_cons_flag, flagNames_append, flagNames_mapFlag, flagNames_map_enableVals]
  have hsub : ∀ x ∈ flags ++ flagNames (patchModel es flags tn),
      x ∈ flags ++ flagNames es := by
    intro x hx
    rcases List.mem_append.mp hx with hxf | hxn
    · exact List.mem_append_left _ hxf
    · rw [hnamesPM] at hxn
      rcases List.mem_cons.mp hxn with rfl | hxr
      · refine List.mem_append_right _ ?_
        rw [hns_es, flagNames_cons_flag]
        exact List.mem_cons_self _ _
      · rcases List.mem_append.mp hxr with hxM | hxT
        · exact List.mem_append_left _
            (missingFlags_subset _ _ _ (List.mem_reverse.mp hxM))
        · refine List.mem_append_right _ ?_
          rw [hns_es, flagNames_cons_flag]
          exact List.mem_cons_of_mem _ hxT
  have hndPM : (flagNames (patchModel es flags tn)).Nodup := by
    rw [hnamesPM]
    have hndt' := hndt
    rw [flagNames_cons_flag, List.nodup_cons] at hndt'
    rw [List.nodup_cons]
    constructor
    · intro hc
      rcases List.mem_append.mp hc with hM | hT
      · exact missingFlags_not_mem _ _ _ (List.mem_reverse.mp hM)
          (by rw [flagNames_cons_flag]; exact List.mem_cons_self _ _)
      · exact hndt'.1 hT
    · rw [List.nodup_append]
      refine ⟨List.nodup_reverse.mpr (missingFlags_nodup _ _), hndt'.2, ?_⟩
      intro x hxM hxT
      exact missingFlags_not_mem _ _ _ (List.mem_reverse.mp hxM)
        (by rw [flagNames_cons_flag]; exact List.mem_cons_of_mem _ hxT)
  have hncds : nameCount A + nameCount rtail = nameCount es := by
    have h1 : nameCount (es.map (disableEntry tn)) = nameCount es :=
      nameCount_map_disable tn es
    rw [hds, nameCount_append, nameCount_cons_flag] at h1
    exact h1
  have hncPM : nameCount (patchModel es flags tn) ≤ 1 := by
    rw [hpm, nameCount_append, hevred, nameCount_cons_flag, nameCount_append,
      nameCount_mapFlag, nameCount_map_ev]
    omega
  have hwf' : WFcheck (patchModel es flags tn) flags tn = true := by
    simp only [WFcheck, Bool.and_eq_true, List.all_eq_true, decide_eq_true_eq]
    refine ⟨⟨⟨⟨?_, ?_⟩, ?_⟩, ?_⟩, ?_⟩
    · intro e he
      exact entryOKB_mono (hokPM e he) hsub
    · intro f hf
      exact flagNameOKB_mono (hflags f hf) hsub
    · exact nameLineOKB_mono htn hsub
    · exact hndPM
    · exact hncPM
  have hidx' : firstFlagIdx (patchModel es flags tn) = some p := by
    rw [hpm, hevred, firstFlagIdx_append A hAnf, hlen]
  have hRTfix : ∀ x ∈ rtail, disableEntry tn (enableValsE flags x) = x := by
    intro x hx
    have hxds : x ∈ es.map (disableEntry tn) := by
      rw [hds]; exact List.mem_append_right A (List.mem_cons_of_mem _ hx)
    obtain ⟨y, _, rfl⟩ := List.mem_map.mp hxds
    exact dis_ev_dis tn flags y
  have hAfix : A.map (disableEntry tn) = A := by
    have h1 : A.map (disableEntry tn) = A.map id := by
      apply List.map_congr_left
      intro x hx
      exact disable_fix_of_mem (by rw [hds]; exact List.mem_append_left _ hx)
    rw [h1, List.map_id]
  have hds₂ : (patchModel es flags tn).map (disableEntry tn) =
      A ++ Entry.flag n₀ '0' ::
        ((missingFlags flags (flagNames (Entry.flag n₀ '0' :: rtail))).reverse.map
          (fun f => Entry.flag f '0') ++ rtail) := by
    rw [hpm]
    simp only [List.map_append, List.map_cons, hAfix, List.map_map]
    have hhead : disableEntry tn (enableValsE flags (Entry.flag n₀ '0')) =
        Entry.flag n₀ '0' := rfl
    have hα : List.map (disableEntry tn ∘ fun f => Entry.flag f '1')
        (missingFlags flags (flagNames (Entry.flag n₀ '0' :: rtail))).reverse =
        List.map (fun f => Entry.flag f '0')
          (missingFlags flags (flagNames (Entry.flag n₀ '0' :: rtail))).reverse := by
      apply List.map_congr_left
      intro f _
      rfl
    have hβ : List.map (disableEntry tn ∘ enableValsE flags) rtail = rtail := by
      have h2 : List.map (disableEntry tn ∘ enableValsE flags) rtail = rtail.map id :=
        List.map_congr_left fun x hx => hRTfix x hx
      rw [h2, List.map_id]
    rw [hhead, hα, hβ]
  have hPP : patchModel (patchModel es flags tn) flags tn = patchModel es flags tn := by
    rw [patchModel_decomp (patchModel es flags tn) flags tn A
      ((missingFlags flags (flagNames (Entry.flag n₀ '0' :: rtail))).reverse.map
        (fun f => Entry.flag f '0') ++ rtail) n₀ '0' hds₂ hAnf]
    have hns₂ : flagNames (Entry.flag n₀ '0' ::
        ((missingFlags flags (flagNames (Entry.flag n₀ '0' :: rtail))).reverse.map
          (fun f => Entry.flag f '0') ++ rtail)) =
        n₀ :: ((missingFlags flags (flagNames (Entry.flag n₀ '0' :: rtail))).reverse ++
          flagNames rtail) := by
      rw [flagNames_cons_flag, flagNames_append, flagNames_mapFlag]
    have hM₂ : missingFlags flags (flagNames (Entry.flag n₀ '0' ::
        ((missingFlags flags (flagNames (Entry.flag n₀ '0' :: rtail))).reverse.map
          (fun f => Entry.flag f '0') ++ rtail))) = [] := by
      apply missingFlags_nil_of_subset
      intro f hf
      rw [hns₂]
      by_cases hm : f ∈ flagNames (Entry.flag n₀ '0' :: rtail)
      · rw [flagNames_cons_flag, List.mem_cons] at hm
        rcases hm with rfl | hm'
        · exact List.mem_cons_self _ _
        · exact List.mem_cons_of_mem _ (List.mem_append_right _ hm')
      · have hM := missingFlags_mem flags _ f hf hm
        exact List.mem_cons_of_mem _
          (List.mem_append_left _ (List.mem_reverse.mpr hM))
    rw [hM₂]
    simp only [List.map_nil, List.reverse_nil, List.nil_append, List.map_append,
      List.map_map]
    have hmapM : List.map (enableValsE flags ∘ fun f => Entry.flag f '0')
        (missingFlags flags (flagNames (Entry.flag n₀ '0' :: rtail))).reverse =
        List.map (fun f => Entry.flag f '1')
          (missingFlags flags (flagNames (Entry.flag n₀ '0' :: rtail))).reverse := by
      apply List.map_congr_left
      intro f hf
      have hgf : f ∈ flags := missingFlags_subset _ _ _ (List.mem_reverse.mp hf)
      show enableValsE flags (Entry.flag f '0') = Entry.flag f '1'
      simp [enableValsE, hgf]
    rw [hmapM, hpm]
  have h1 := updateTestFile_model hwf hidx
  have h2 := updateTestFile_model hwf' hidx'
  rw [hPP] at h2
  refine ⟨h1, h2, ?_⟩
  rw [render_filterMap_ok (patchModel es flags tn) hokPM]
  exact hndPM.map flagPat_injective

/-- Witness for C4 (amended), again at spec §8's scenario 1. -/
theorem c4_amended_witness :
    WFcheck esW flagsW tnW = true ∧
    UpdateTestFile (render esW) flagsW tnW = some (render (patchModel esW flagsW tnW)) ∧
    UpdateTestFile (render (patchModel esW flagsW tnW)) flagsW tnW =
      some (render (patchModel esW flagsW tnW)) ∧
    ((render (patchModel esW flagsW tnW)).filterMap searchTestEnabled).Nodup :=
  ⟨rfl,
   (c4_amended_patch_idempotent esW flagsW tnW 2 rfl rfl).1,
   (c4_amended_patch_idempotent esW flagsW tnW 2 rfl rfl).2.1,
   (c4_amended_patch_idempotent esW flagsW tnW 2 rfl rfl).2.2⟩

end TestValidator
